import Mathlib

/-!
Verification model of the bluestaq-local-rag core pipeline.

The Python sources `app/retriever.py`, `app/rag.py` and `app/guardrails.py` are
shallowly embedded: the external ML services (sentence embedder + FAISS index,
BM25 scorer, cross-encoder, llama.cpp generation) are treated as oracles whose
per-query outputs are inputs of the Lean functions, and every piece of in-scope
Python logic (candidate-set construction, score fusion, sorting, truncation,
citation parsing, evidence-map building, uncited-claim classification, PII
redaction) is translated directly.  Python floats are modelled as exact
rationals (`ℚ`); floating-point rounding is out of scope.  Text is modelled as
`List Char` (ASCII view of Python `str`).
-/

attribute [local semireducible] Rat.mul Rat.add Rat.sub Rat.inv Rat.ofScientific

namespace RagModel

/-- Text is modelled as a list of characters. -/
abbrev Str := List Char

/-- Descending-by-score order: `scoreGe a b` holds when `a`'s score is at least `b`'s.
Python's `sorted(..., key=lambda x: x[1], reverse=True)` is a stable descending
sort, which is exactly `List.insertionSort scoreGe`. -/
def scoreGe (a b : ℕ × ℚ) : Prop := b.2 ≤ a.2

instance : DecidableRel scoreGe := fun a b => inferInstanceAs (Decidable (b.2 ≤ a.2))

instance : IsTotal (ℕ × ℚ) scoreGe := ⟨fun a b => le_total b.2 a.2⟩

instance : IsTrans (ℕ × ℚ) scoreGe := ⟨fun _ _ _ h1 h2 => le_trans h2 h1⟩

/-- One retrieved chunk as returned by `HybridRetriever.search`: the
`text`/`score`/`title` dictionary built at retriever.py lines 86-90. -/
structure RChunk where
  text : Str
  score : ℚ
  title : Str
deriving DecidableEq

/-- State of a `HybridRetriever` plus the per-query outputs of the external models,
treated as oracle inputs:
* `dense? = some d` models a loaded FAISS index whose search
  `faiss_index.search(qv, k)` returns the positionally paired id/score list `d k`
  (retriever.py lines 48-49); `none` models `self.faiss_index` being unavailable;
* `bm? = some bm` models a loaded BM25 index with
  `bm25.get_scores(query.split()) = bm` (line 50); `none` models `self.bm25 = None`;
* `docs`/`meta` model `self.docs` and the titles stored in `self.meta`
  (`meta[i].get("title", "Unknown")` is folded into the stored title);
* `useReranker` models `self.use_reranker` (the constructor sets `self.reranker`
  exactly when it is true, so line 64's conjunction equals this flag);
* `rr i` models the cross-encoder score `reranker.predict([[query, docs[i]]])`
  for chunk `i` (the query is fixed, so the score is a function of the id). -/
structure SearchInput where
  dense? : Option (ℕ → List (ℕ × ℚ))
  bm? : Option (List ℚ)
  docs : List Str
  meta : List Str
  useReranker : Bool
  rr : ℕ → ℚ

/-- retriever.py line 57: the dense score of candidate `i` is the score paired with
the first occurrence of `i` in the dense id list (`list(dense_idx).index(i)`), and
`0` when `i` is not a dense-retrieved id. -/
def denseScoreOf (dense : List (ℕ × ℚ)) (i : ℕ) : ℚ :=
  match dense.find? (fun p => p.1 == i) with
  | some p => p.2
  | none => 0

/-- retriever.py line 58: `float(bm_scores[i]) if i < len(bm_scores) else 0`. -/
def sparseScoreOf (bm : List ℚ) (i : ℕ) : ℚ :=
  if h : i < bm.length then bm.get ⟨i, h⟩ else 0

/-- retriever.py line 51: the ids of the `k` highest BM25 scores
(`np.argpartition(-bm_scores, ...)[:k]`).  numpy leaves the order of the selected
slice unspecified; the model takes them in stable score-descending order. -/
def bmTopIds (bm : List ℚ) (k : ℕ) : List ℕ :=
  ((((List.range bm.length).map (fun i => (i, sparseScoreOf bm i))).insertionSort
      scoreGe).take k).map Prod.fst

/-- retriever.py line 52: `cand = list(set(dense_idx.tolist()) | set(bm_top.tolist()))`.
Python set-union enumeration order is unspecified; the model keeps one occurrence of
each id from the concatenation. -/
def candidateIds (dense : List (ℕ × ℚ)) (bm : List ℚ) (rerank_k : ℕ) : List ℕ :=
  ((dense.map Prod.fst) ++ bmTopIds bm (rerank_k * 2)).dedup

/-- retriever.py lines 55-60: fused score `alpha * dense + (1 - alpha) * sparse`
for every candidate. -/
def fusedPairs (dense : List (ℕ × ℚ)) (bm : List ℚ) (rerank_k : ℕ) (alpha : ℚ) :
    List (ℕ × ℚ) :=
  (candidateIds dense bm rerank_k).map fun i =>
    (i, alpha * denseScoreOf dense i + (1 - alpha) * sparseScoreOf bm i)

/-- retriever.py line 61: `sorted(fused, key=lambda x: x[1], reverse=True)[:initial_k]`. -/
def fusedSorted (dense : List (ℕ × ℚ)) (bm : List ℚ) (rerank_k : ℕ) (alpha : ℚ)
    (initial_k : ℕ) : List (ℕ × ℚ) :=
  ((fusedPairs dense bm rerank_k alpha).insertionSort scoreGe).take initial_k

/-- retriever.py line 72: `final_score = 0.7 * float(rerank_score) + 0.3 * orig_score`. -/
def rerankBlend (rr : ℕ → ℚ) (p : ℕ × ℚ) : ℕ × ℚ :=
  (p.1, (7 : ℚ)/10 * rr p.1 + (3 : ℚ)/10 * p.2)

/-- retriever.py lines 86-90: the result dictionary built for one scored id. -/
def toChunk (inp : SearchInput) (p : ℕ × ℚ) : RChunk :=
  { text := inp.docs.getD p.1 [],
    score := p.2,
    title := inp.meta.getD p.1 ("Unknown".toList) }

namespace HybridRetriever

/-- Model of `HybridRetriever.search` (retriever.py lines 41-150).  The `explain` branch
(lines 92-147) only attaches a derived `explain` payload to each returned item and
is not modelled; id out-of-range access into `docs` is modelled with a default
(the claims below never depend on that case). -/
def search (inp : SearchInput) (top_k rerank_k : ℕ) (alpha : ℚ) : List RChunk :=
  match inp.dense?, inp.bm? with
  | some denseF, some bm =>
      let initial_k := if inp.useReranker then top_k * 3 else top_k
      let dense := denseF initial_k
      let fused := fusedSorted dense bm rerank_k alpha initial_k
      let finals : List (ℕ × ℚ) :=
        if inp.useReranker then
          ((fused.map (rerankBlend inp.rr)).insertionSort scoreGe).take top_k
        else
          fused.take top_k
      finals.map (toChunk inp)
  | _, _ => []

end HybridRetriever

/-! Text utilities shared by the `app/rag.py` model.  They mirror the exact
Python regex/str operations used there, on the ASCII character classes of the
patterns (`\s`, `\d`, word characters). -/

/-- Python regex `\s` / `str.strip` whitespace, ASCII part. -/
def isSpaceA (c : Char) : Bool :=
  c = ' ' || c = '\t' || c = '\n' || c = '\r' || c = '\x0b' || c = '\x0c'

/-- Python `str.strip()`. -/
def trim (s : Str) : Str :=
  ((s.dropWhile isSpaceA).reverse.dropWhile isSpaceA).reverse

/-- Python `str.lower()` (ASCII). -/
def toLowerS (s : Str) : Str := s.map Char.toLower

/-- Bool test that `pat` is an initial segment of `s`. -/
def startsWithL (pat s : Str) : Bool := s.take pat.length == pat

/-- Python `pat in s` (substring containment). -/
def hasSubL (pat : Str) : Str → Bool
  | [] => pat == []
  | c :: rest => startsWithL pat (c :: rest) || hasSubL pat rest

/-- Python `len(s.split())`: number of maximal nonempty whitespace-separated words. -/
def wordCountAux : Bool → Str → ℕ
  | _, [] => 0
  | inWord, c :: rest =>
    if isSpaceA c then wordCountAux false rest
    else (if inWord then 0 else 1) + wordCountAux true rest

/-- Python `len(s.split())`. -/
def wordCount (s : Str) : ℕ := wordCountAux false s

/-- Numeric value of a digit string (Python `int` on the match group). -/
def digitsToNat (ds : Str) : ℕ :=
  ds.foldl (fun acc c => 10 * acc + (c.toNat - '0'.toNat)) 0

/-- One attempt of the regex `\[Source (\d+)\]` at the head of `cs`
(rag.py line 127): on success returns the cited number and the matched length.
`\d+` is greedy and must be followed by `]`, so the match is deterministic. -/
def tryCite (cs : Str) : Option (ℕ × ℕ) :=
  let pat := "[Source ".toList
  if startsWithL pat cs then
    let rest := cs.drop pat.length
    let ds := rest.takeWhile Char.isDigit
    if ds.isEmpty then none
    else
      match rest.drop ds.length with
      | ']' :: _ => some (digitsToNat ds, pat.length + ds.length + 1)
      | _ => none
  else none

/-- Fuel-based scanner for `scanCitations` (structural recursion on the fuel so
the definition evaluates inside the kernel; a successful match consumes at least
one character, so fuel equal to the text length makes the fuel-out case
unreachable and the semantics exact). -/
def scanCitationsF : ℕ → Str → List ℕ
  | 0, _ => []
  | _, [] => []
  | fuel + 1, c :: rest =>
    match tryCite (c :: rest) with
    | some (n, k) => n :: scanCitationsF fuel ((c :: rest).drop k)
    | none => scanCitationsF fuel rest

/-- rag.py line 128: `re.findall(r'\[Source (\d+)\]', answer)` converted to ints
(line 131), scanning left to right over non-overlapping matches. -/
def scanCitations (cs : Str) : List ℕ := scanCitationsF cs.length cs

/-- rag.py line 176: `re.search(r'\[Source \d+\]', s)` as a Bool. -/
def hasCitationTag : Str → Bool
  | [] => false
  | c :: rest => (tryCite (c :: rest)).isSome || hasCitationTag rest

/-- rag.py line 153: `re.split(r'(?<=[.!?])\s+', s)`.  A split point is a maximal
whitespace run immediately preceded by a sentence terminator; the run is consumed. -/
def isTermCh (c : Char) : Bool := c = '.' || c = '!' || c = '?'

/-- Auxiliary scanner for `splitSentences`; `acc` holds the current sentence
reversed.  Fuel-based for kernel evaluation: every step consumes at least one
character, so fuel equal to the text length makes the fuel-out case unreachable. -/
def splitSentencesAux : ℕ → Str → Str → List Str
  | 0, acc, _ => [acc.reverse]
  | _, acc, [] => [acc.reverse]
  | fuel + 1, acc, c :: rest =>
    if isTermCh c && (match rest with | r :: _ => isSpaceA r | [] => false) then
      (acc.reverse ++ [c]) :: splitSentencesAux fuel [] (rest.dropWhile isSpaceA)
    else
      splitSentencesAux fuel (c :: acc) rest

/-- rag.py line 153. -/
def splitSentences (cs : Str) : List Str := splitSentencesAux cs.length [] cs

/-- rag.py lines 168-174: the disclaimer vocabulary. -/
def disclaimerPhrases : List Str :=
  ["do not mention".toList, "not mentioned".toList, "sources do not".toList,
   "provided sources".toList, "the provided sources do not".toList]

/-- rag.py line 175: `any(p in s.lower() for p in disclaimer_phrases)`. -/
def isDisclaimer (s : Str) : Bool :=
  disclaimerPhrases.any (fun p => hasSubL p (toLowerS s))

/-- rag.py line 163: `re.match(r'^[123]\.\s', s)`. -/
def numberedHead : Str → Bool
  | a :: b :: c :: _ => (a = '1' || a = '2' || a = '3') && b = '.' && isSpaceA c
  | _ => false

/-- rag.py lines 156-181: the classification of one raw sentence as a claim that
requires a citation (the body of the loop; `continue` branches become `false`). -/
def isUncitedClaim (sent : Str) : Bool :=
  let s := trim sent
  if s.isEmpty then false
  else if startsWithL ("follow-up questions:".toList) (toLowerS s) then false
  else if numberedHead s then false
  else
    let s2 := trim (s.map (fun c => if c = '\n' then ' ' else c))
    !hasCitationTag s2 && !hasSubL ("[External".toList) s2 && !isDisclaimer s2
      && decide (6 < wordCount s2)

/-- Model of the uncited-claims check (rag.py lines 147-183):
`re.sub(r'[\r]+', '', answer)` removes every carriage return, the result is split
into sentences, and the flag is `uncited_count > 0`. -/
def checkForUncitedClaims (answer : Str) : Bool :=
  decide (0 < ((splitSentences (answer.filter (fun c => c ≠ '\r'))).filter
    isUncitedClaim).length)

/-- rag.py lines 27-34: one entry of the `sources` list built by `query`. -/
structure Source where
  id : ℕ
  title : Str
  score : ℚ
  text_full : Str
  text_snippet : Str
deriving DecidableEq

/-- rag.py lines 139-143: one evidence-map entry. -/
structure EvidenceMapEntry where
  id : ℕ
  source_title : Str
  span : Str
deriving DecidableEq

/-- rag.py line 138: `text[:200] + "..." if len(text) > 200 else text`. -/
def spanOf (text : Str) : Str :=
  if 200 < text.length then text.take 200 ++ "...".toList else text

/-- rag.py lines 134-143: resolve one cited id against the source list
(`next((s for s in sources if s["id"] == source_id), None)`) and build its entry. -/
def entryFor (sources : List Source) (n : ℕ) : Option EvidenceMapEntry :=
  match sources.find? (fun s => s.id == n) with
  | some s => some { id := n, source_title := s.title, span := spanOf s.text_full }
  | none => none

/-- rag.py lines 130-145: `sorted(set(citations))` traversed in ascending order,
keeping only ids that resolve against the source list. -/
def extractFromCited (cited : List ℕ) (sources : List Source) :
    List EvidenceMapEntry :=
  ((cited.dedup).insertionSort (· ≤ ·)).filterMap (entryFor sources)

/-- Model of the evidence-map extraction (rag.py lines 122-145). -/
def extractEvidenceMap (answer : Str) (sources : List Source) :
    List EvidenceMapEntry :=
  extractFromCited (scanCitations answer) sources

/-- rag.py lines 27-34: `sources` built from the retrieved chunks with 1-based ids. -/
def sourcesOf (retrieved : List RChunk) : List Source :=
  retrieved.enum.map fun p =>
    { id := p.1 + 1, title := p.2.title, score := p.2.score,
      text_full := p.2.text, text_snippet := p.2.text.take 200 }

/-- rag.py line 36: the `[Source N]`-labelled context block. -/
def contextText (retrieved : List RChunk) : Str :=
  List.intercalate ("\n\n".toList) (retrieved.enum.map fun p =>
    "[Source ".toList ++ (Nat.repr (p.1 + 1)).toList ++ "] ".toList ++ p.2.title
      ++ "\n".toList ++ p.2.text.take 400)

/-- rag.py lines 41-51: the generation prompt.  The question has the style
suffix appended; retrieval (line 20) received only the raw question. -/
def promptOf (systemPrompt context question suffix : Str) : Str :=
  systemPrompt ++ "\n\n".toList
    ++ "Context:\n".toList ++ context
    ++ "\n\nQuestion: ".toList ++ question ++ suffix
    ++ "\n\nInstructions:\n".toList
    ++ "- Write naturally without explicitly mentioning sources (avoid phrases like \x27According to Source 1\x27 or \x27Source 2 states\x27).\n".toList
    ++ "- After each sentence or claim, add the citation tag [Source N] at the end.\n".toList
    ++ "- If you use information not present in the Context, tag it with [External Knowledge] at the end of that sentence.\n".toList
    ++ "- Use ONLY information from the Context above unless absolutely necessary.\n\n".toList
    ++ "Answer:\n".toList

/-- rag.py line 71: `re.sub(r'^Answer:\s*', '', answer, flags=re.IGNORECASE)`
(anchored, so at most one replacement at the very start). -/
def stripAnswerLabel (s : Str) : Str :=
  if toLowerS (s.take 7) == "answer:".toList then
    (s.drop 7).dropWhile isSpaceA
  else s

/-- rag.py line 72: `re.sub(r'\n\s*Answer:\s*', '\n', answer, flags=re.IGNORECASE)`.
`\s*` only matches whitespace and `Answer` starts with a non-whitespace character,
so each match consumes the full whitespace run after the newline. -/
def stripInnerAnswerLabelsF : ℕ → Str → Str
  | 0, cs => cs
  | _, [] => []
  | fuel + 1, c :: rest =>
    if c = '\n' then
      let r1 := rest.dropWhile isSpaceA
      if toLowerS (r1.take 7) == "answer:".toList then
        '\n' :: stripInnerAnswerLabelsF fuel ((r1.drop 7).dropWhile isSpaceA)
      else
        '\n' :: stripInnerAnswerLabelsF fuel rest
    else c :: stripInnerAnswerLabelsF fuel rest

/-- Fuel instantiated with the text length (each step consumes at least one
character, so the fuel-out case is unreachable and the semantics exact). -/
def stripInnerAnswerLabels (s : Str) : Str := stripInnerAnswerLabelsF s.length s

/-- rag.py lines 68-72: `.strip()` then the two label-stripping substitutions. -/
def cleanAnswer (raw : Str) : Str :=
  stripInnerAnswerLabels (stripAnswerLabel (trim raw))

/-- rag.py line 208: `re.sub(r'^Follow-up questions?:\s*', '', s, IGNORECASE)`
(anchored; the greedy optional `s` is tried first). -/
def stripFollowupLabel (s : Str) : Str :=
  if toLowerS (s.take 20) == "follow-up questions:".toList then
    (s.drop 20).dropWhile isSpaceA
  else if toLowerS (s.take 19) == "follow-up question:".toList then
    (s.drop 19).dropWhile isSpaceA
  else s

/-- rag.py lines 187-196: the follow-up generation prompt. -/
def followupPrompt (question answer context : Str) : Str :=
  "Based on this question and answer, suggest up to 3 useful follow-up questions that can be answered using the provided context sources.\n\nOriginal Question: ".toList
    ++ question ++ "\n\nAnswer: ".toList ++ answer
    ++ "\n\nContext Sources:\n".toList ++ context.take 800
    ++ "\n\nProvide 3 concise follow-up questions as a numbered list (1., 2., 3.). Only suggest questions that are answerable from the context.".toList

/-- The generation service (llama.cpp) as an oracle: a prompt either yields text
or raises (modelled as `Except`, the error payload being `str(e)`).  Sampling
parameters are fixed configuration constants folded into the oracle. -/
structure GenService where
  primary : Str → Except Str Str
  followup : Str → Except Str Str

/-- Model of the follow-up generation (rag.py lines 185-211): its own
`try/except` returns `""` on failure, otherwise strips and removes the label. -/
def generateFollowups (gen : Str → Except Str Str) (prompt : Str) : Str :=
  match gen prompt with
  | Except.ok t => stripFollowupLabel (trim t)
  | Except.error _ => []

/-- rag.py lines 98-105 / 107: the result dictionary of one query. -/
structure QueryResult where
  answer : Str
  sources : List Source
  evidence_map : List EvidenceMapEntry
  has_external_knowledge : Bool
  uncited_warning : Bool
  followup_questions : Str
deriving DecidableEq

namespace RAGPipeline

/-- Model of `RAGPipeline.query` (rag.py lines 19-107) for `explain=False`: retrieval uses
the raw question only (line 20); the style suffix enters only the prompt
(line 44); any generation error is caught and degraded (lines 106-107); the
`explain=True` branch (lines 78-85) only decorates `sources` and is not
modelled.  The token-budget numbers (lines 53-58) only parameterize the oracle
call and are folded into it. -/
def query (inp : SearchInput) (top_k rerank_k : ℕ) (alpha : ℚ)
    (systemPrompt : Str) (gen : GenService) (question prompt_suffix : Str)
    (generate_followups : Bool) : QueryResult :=
  let retrieved := HybridRetriever.search inp top_k rerank_k alpha
  let sources := sourcesOf retrieved
  let context := contextText retrieved
  let prompt := promptOf systemPrompt context question prompt_suffix
  match gen.primary prompt with
  | Except.error e =>
      { answer := "❌ LLM error: ".toList ++ e, sources := [], evidence_map := [],
        has_external_knowledge := false, uncited_warning := false,
        followup_questions := [] }
  | Except.ok raw =>
      let answer := cleanAnswer raw
      let evidence_map := extractEvidenceMap answer sources
      let has_external := hasSubL ("[External Knowledge]".toList) answer
        || hasSubL ("[External]".toList) answer
      let uncited := checkForUncitedClaims answer
      let followups :=
        if generate_followups then
          generateFollowups gen.followup (followupPrompt question answer context)
        else []
      { answer := answer, sources := sources, evidence_map := evidence_map,
        has_external_knowledge := has_external, uncited_warning := uncited,
        followup_questions := followups }

end RAGPipeline

/-! Model of `app/guardrails.py` `Guardrails.redact_pii` (lines 27-68): four
`re.sub` passes (email, phone, SSN, credit card), each enabled by its config
flag.  Each regex is embedded as a deep abstract syntax tree `RE` interpreted
by a CPS backtracking matcher `matchRE` faithful to Python `re` semantics
(greedy quantifiers with backtracking, `\b` via wordness of the neighbouring
characters, alternatives tried with-the-piece first).  `re.sub` is embedded as
the left-to-right scan `substPiiF` replacing non-overlapping matches, with
lookbehind context taken from the original text. -/

def isWordA (c : Char) : Bool := c.isAlphanum || c = '_'

/-- Wordness of the character at index `j` (`false` past the end, matching the
behavior of `\b` at the end of the text). -/
def wbAt (cs : Str) (j : ℕ) : Bool :=
  match cs.drop j with
  | [] => false
  | c :: _ => isWordA c

def wbOf : Option Char → Bool
  | none => false
  | some c => isWordA c

/-- Regex abstract syntax, covering the constructs of the four PII patterns. -/
inductive RE where
  | eps : RE
  | lit : Char → RE
  | cls : (Char → Bool) → RE
  | opt : RE → RE
  | cat : RE → RE → RE
  | atLeastCls : ℕ → (Char → Bool) → RE
  | wordB : RE

/-- Greedy backtracking for a class repeated at least n times: `crev` is the reversed consumed run, `rest`
what follows; lengths are tried longest first. -/
def atLeastAux {α : Type} (n : ℕ) (k : Option Char → Str → Option α) :
    Str → Str → Option α
  | [], _ => none
  | c :: crev, rest =>
    (if n ≤ crev.length + 1 then k (some c) rest else none).orElse
      (fun _ => atLeastAux n k crev (c :: rest))

open RE in
/-- CPS backtracking interpreter with Python `re` semantics: greedy quantifiers,
alternatives tried with-the-piece first, leftmost preference handled by the
caller; the continuation receives the lookbehind character (last consumed). -/
def matchRE {α : Type} :
    RE → Option Char → Str → (Option Char → Str → Option α) → Option α
  | eps, prev, cs, k => k prev cs
  | lit c, _, cs, k =>
    (match cs with
     | x :: rest => if x = c then k (some x) rest else none
     | [] => none)
  | cls p, _, cs, k =>
    (match cs with
     | x :: rest => if p x then k (some x) rest else none
     | [] => none)
  | opt r, prev, cs, k =>
    (matchRE r prev cs k).orElse (fun _ => k prev cs)
  | cat r1 r2, prev, cs, k =>
    matchRE r1 prev cs (fun p1 cs1 => matchRE r2 p1 cs1 k)
  | atLeastCls n p, prev, cs, k =>
    atLeastAux n k (cs.takeWhile p).reverse (cs.drop (cs.takeWhile p).length)
  | wordB, prev, cs, k =>
    if wbOf prev != wbAt cs 0 then k prev cs else none

/-- Top-level match attempt at the current position: returns the lookbehind
character for the rest of the scan and the number of characters consumed. -/
def tryRE (r : RE) (prev : Option Char) (cs : Str) : Option (Option Char × ℕ) :=
  match matchRE r prev cs (fun p rem => some (p, rem)) with
  | some (p, rem) => some (p, cs.length - rem.length)
  | none => none

def reSeq : List RE → RE
  | [] => RE.eps
  | r :: rs => RE.cat r (reSeq rs)

def reN (k : ℕ) (p : Char → Bool) : RE := reSeq (List.replicate k (RE.cls p))

def isDigitA (c : Char) : Bool := c.isDigit

def isLocalCh (c : Char) : Bool :=
  c.isAlphanum || c = '.' || c = '_' || c = '%' || c = '+' || c = '-'

def isDomainCh (c : Char) : Bool := c.isAlphanum || c = '.' || c = '-'

def isTldCh (c : Char) : Bool := c.isAlpha || c = '|'

def isSepPh (c : Char) : Bool := c = '-' || c = '.' || isSpaceA c

def isSepCc (c : Char) : Bool := c = '-' || isSpaceA c

/-- guardrails.py line 39: `\b[A-Za-z0-9._%+-]+@[A-Za-z0-9.-]+\.[A-Z|a-z]{2,}\b`. -/
def emailRE : RE := reSeq
  [RE.wordB, RE.atLeastCls 1 isLocalCh, RE.lit '@', RE.atLeastCls 1 isDomainCh,
   RE.lit '.', RE.atLeastCls 2 isTldCh, RE.wordB]

/-- guardrails.py line 47:
`\b(\+?1[-.\s]?)?\(?\d{3}\)?[-.\s]?\d{3}[-.\s]?\d{4}\b`. -/
def phoneRE : RE := reSeq
  [RE.wordB,
   RE.opt (reSeq [RE.opt (RE.lit '+'), RE.lit '1', RE.opt (RE.cls isSepPh)]),
   RE.opt (RE.lit '('), reN 3 isDigitA, RE.opt (RE.lit ')'),
   RE.opt (RE.cls isSepPh), reN 3 isDigitA, RE.opt (RE.cls isSepPh),
   reN 4 isDigitA, RE.wordB]

/-- guardrails.py line 55: `\b\d{3}-\d{2}-\d{4}\b`. -/
def ssnRE : RE := reSeq
  [RE.wordB, reN 3 isDigitA, RE.lit '-', reN 2 isDigitA, RE.lit '-',
   reN 4 isDigitA, RE.wordB]

/-- guardrails.py line 63: `\b\d{4}[-\s]?\d{4}[-\s]?\d{4}[-\s]?\d{4}\b`. -/
def ccRE : RE := reSeq
  [RE.wordB, reN 4 isDigitA, RE.opt (RE.cls isSepCc), reN 4 isDigitA,
   RE.opt (RE.cls isSepCc), reN 4 isDigitA, RE.opt (RE.cls isSepCc),
   reN 4 isDigitA, RE.wordB]

/-- One `re.sub` pass (fuel-based; every match consumes at least one character,
so fuel equal to the length is exact). -/
def substPiiF (r : RE) (token : Str) : ℕ → Option Char → Str → Str
  | 0, _, cs => cs
  | _, _, [] => []
  | fuel + 1, prev, c :: rest =>
    match tryRE r prev (c :: rest) with
    | some (p, k) => token ++ substPiiF r token fuel p ((c :: rest).drop k)
    | none => c :: substPiiF r token fuel (some c) rest

def substPii (r : RE) (token : Str) (cs : Str) : Str :=
  substPiiF r token cs.length none cs

structure PiiConfig where
  email : Bool
  phone : Bool
  ssn : Bool
  credit_card : Bool

namespace Guardrails

def redact_pii (cfg : PiiConfig) (text : Str) : Str :=
  let r1 := if cfg.email then substPii emailRE ("[REDACTED_EMAIL]".toList) text
            else text
  let r2 := if cfg.phone then substPii phoneRE ("[REDACTED_PHONE]".toList) r1
            else r1
  let r3 := if cfg.ssn then substPii ssnRE ("[REDACTED_SSN]".toList) r2
            else r2
  if cfg.credit_card then substPii ccRE ("[REDACTED_CC]".toList) r3 else r3

end Guardrails

/-- Nondeterministic relational semantics: `Matches r w cs j w2` holds when `r`
can match the first `j` characters of `cs`, entered with lookbehind wordness `w`
and leaving with lookbehind wordness `w2` (the wordness of the last consumed
character, or `w` when nothing was consumed).  Word boundaries peek at the
character at the current offset via `wbAt` (`false` past the end). -/
inductive Matches : RE → Bool → Str → ℕ → Bool → Prop where
  | eps : ∀ w cs, Matches .eps w cs 0 w
  | lit : ∀ w c rest, Matches (.lit c) w (c :: rest) 1 (isWordA c)
  | cls : ∀ w p c rest, p c = true → Matches (.cls p) w (c :: rest) 1 (isWordA c)
  | optSome : ∀ w r cs j w2, Matches r w cs j w2 → Matches (.opt r) w cs j w2
  | optNone : ∀ w r cs, Matches (.opt r) w cs 0 w
  | cat : ∀ w r1 r2 cs j1 w1 j2 w2, Matches r1 w cs j1 w1 →
      Matches r2 w1 (cs.drop j1) j2 w2 → Matches (.cat r1 r2) w cs (j1 + j2) w2
  | atLeast : ∀ w n p cs j, 1 ≤ j → n ≤ j → j ≤ cs.length →
      (∀ c ∈ cs.take j, p c = true) →
      Matches (.atLeastCls n p) w cs j (isWordA (cs.getD (j - 1) ' '))
  | wordB : ∀ w cs, (w != wbAt cs 0) = true → Matches .wordB w cs 0 w

/-- Every character a pattern can consume lies in the class `q`. -/
def reChars (q : Char → Bool) : RE → Prop
  | .eps => True
  | .lit c => q c = true
  | .cls p => ∀ c, p c = true → q c = true
  | .opt r => reChars q r
  | .cat r1 r2 => reChars q r1 ∧ reChars q r2
  | .atLeastCls _ p => ∀ c, p c = true → q c = true
  | .wordB => True

/-- Every match of the pattern must consume at least one character in `q`. -/
def reNeeds (q : Char → Bool) : RE → Prop
  | .eps => False
  | .lit c => q c = true
  | .cls p => ∀ c, p c = true → q c = true
  | .opt _ => False
  | .cat r1 r2 => reNeeds q r1 ∨ reNeeds q r2
  | .atLeastCls n p => 1 ≤ n ∧ ∀ c, p c = true → q c = true
  | .wordB => False

/-- The concatenation spine ends in a word-boundary anchor. -/
def trailingB : RE → Prop
  | .cat r1 r2 => (r1 = .wordB ∧ r2 = .eps) ∨ trailingB r2
  | _ => False

def notBracket (c : Char) : Bool := !(c == '[' || c == ']')

/-- The facts about a PII pattern that drive the scanner arguments. -/
structure PatFacts (r : RE) (q : Char → Bool) : Prop where
  needs : reNeeds q r
  chars : reChars notBracket r
  trailing : trailingB r
  leading : ∃ r0, r = RE.cat .wordB r0

def isAtSign (c : Char) : Bool := c == '@'

/-- Wordness context the scanner sees at position `n`: the starting context at
the head, otherwise the wordness of the previous character. -/
def ctxW (w : Bool) (cs : Str) (n : ℕ) : Bool :=
  if n = 0 then w else wbAt cs (n - 1)

/-- No match of `r` exists at any position of `cs` under the contexts the
scanner would present. -/
def NoM (r : RE) (w : Bool) (cs : Str) : Prop :=
  ∀ n j w2, ¬ Matches r (ctxW w cs n) (cs.drop n) j w2

def prevAt (prev : Option Char) : Str → Option Char
  | [] => prev
  | c :: pre => prevAt (some c) pre

/-- One optional pass of the scanner, as used by `redact_pii`. -/
def stepP (b : Bool) (r : RE) (T : Str) (s : Str) : Str :=
  if b then substPii r T s else s


theorem find?_eq_none_of_not_mem_fst {dense : List (ℕ × ℚ)} {i : ℕ}
    (h : i ∉ dense.map Prod.fst) : dense.find? (fun p => p.1 == i) = none := by
  rw [List.find?_eq_none]
  intro p hp hbeq
  exact h (List.mem_map.mpr ⟨p, hp, eq_of_beq hbeq⟩)

theorem denseScoreOf_eq_zero {dense : List (ℕ × ℚ)} {i : ℕ}
    (h : i ∉ dense.map Prod.fst) : denseScoreOf dense i = 0 := by
  unfold denseScoreOf
  rw [find?_eq_none_of_not_mem_fst h]


theorem entryFor_id {sources : List Source} {n : ℕ} {e : EvidenceMapEntry}
    (h : entryFor sources n = some e) : e.id = n := by
  unfold entryFor at h
  split at h
  · cases h
    rfl
  · cases h

theorem entryFor_isSome_iff {sources : List Source} {n : ℕ} :
    (entryFor sources n).isSome = true ↔ n ∈ sources.map Source.id := by
  unfold entryFor
  cases hf : sources.find? (fun s => s.id == n) with
  | none =>
    rw [List.find?_eq_none] at hf
    simp only [Option.isSome_none, Bool.false_eq_true, false_iff]
    intro hmem
    obtain ⟨s, hs, hid⟩ := List.mem_map.mp hmem
    exact hf s hs (by simp [hid])
  | some s =>
    simp only [Option.isSome_some, true_iff]
    have hp := List.find?_some hf
    have hmem := List.mem_of_find?_eq_some hf
    exact List.mem_map.mpr ⟨s, hmem, eq_of_beq hp⟩

theorem filterMap_entryFor_map_id (sources : List Source) (l : List ℕ) :
    (l.filterMap (entryFor sources)).map (fun e => e.id)
      = l.filter (fun n => decide (n ∈ sources.map Source.id)) := by
  induction l with
  | nil => rfl
  | cons n t ih =>
    rw [List.filterMap_cons, List.filter_cons]
    cases he : entryFor sources n with
    | none =>
      have hd : decide (n ∈ sources.map Source.id) = false := by
        rw [decide_eq_false_iff_not]
        intro hmem
        have := entryFor_isSome_iff.mpr hmem
        rw [he] at this
        cases this
      rw [hd]
      simpa using ih
    | some e =>
      have hd : decide (n ∈ sources.map Source.id) = true := by
        rw [decide_eq_true_eq]
        exact entryFor_isSome_iff.mp (by rw [he]; rfl)
      rw [hd]
      simp [entryFor_id he, ih]

theorem filterMap_eq_filterMap_filter_isSome {α β : Type} (f : α → Option β) :
    ∀ l : List α, l.filterMap f = (l.filter (fun x => (f x).isSome)).filterMap f := by
  intro l
  induction l with
  | nil => rfl
  | cons a t ih =>
    rw [List.filterMap_cons, List.filter_cons]
    cases hf : f a with
    | none => simpa [hf] using ih
    | some b => simp [hf, List.filterMap_cons, ih]

theorem sorted_lt_of_le_nodup {l : List ℕ} (hs : List.Sorted (· ≤ ·) l)
    (hn : l.Nodup) : List.Sorted (· < ·) l :=
  (hs.and hn).imp (fun h => lt_of_le_of_ne h.1 h.2)

theorem sorted_nodup_ext {l₁ l₂ : List ℕ} (s₁ : List.Sorted (· ≤ ·) l₁)
    (s₂ : List.Sorted (· ≤ ·) l₂) (n₁ : l₁.Nodup) (n₂ : l₂.Nodup)
    (h : ∀ x, x ∈ l₁ ↔ x ∈ l₂) : l₁ = l₂ :=
  List.eq_of_perm_of_sorted ((List.perm_ext_iff_of_nodup n₁ n₂).mpr h) s₁ s₂

theorem sortedDedup_sorted (cited : List ℕ) :
    List.Sorted (· ≤ ·) ((cited.dedup).insertionSort (· ≤ ·)) :=
  List.sorted_insertionSort _ _

theorem sortedDedup_nodup (cited : List ℕ) :
    ((cited.dedup).insertionSort (· ≤ ·)).Nodup :=
  ((List.perm_insertionSort _ _).nodup_iff).mpr (List.nodup_dedup _)

theorem extract_props (cited : List ℕ) (sources : List Source) :
    ((extractFromCited cited sources).map (fun e => e.id)
        = ((cited.dedup).insertionSort (· ≤ ·)).filter
            (fun n => decide (n ∈ sources.map Source.id)))
    ∧ List.Sorted (· < ·) ((extractFromCited cited sources).map (fun e => e.id))
    ∧ ∀ e ∈ extractFromCited cited sources, e.id ∈ sources.map Source.id := by
  have hmap := filterMap_entryFor_map_id sources ((cited.dedup).insertionSort (· ≤ ·))
  refine ⟨hmap, ?_, ?_⟩
  · unfold extractFromCited
    rw [hmap]
    exact sorted_lt_of_le_nodup
      (List.Pairwise.sublist (List.filter_sublist _) (sortedDedup_sorted cited))
      ((sortedDedup_nodup cited).filter _)
  · intro e he
    obtain ⟨m, hm, hme⟩ := List.mem_filterMap.mp he
    rw [entryFor_id hme]
    exact entryFor_isSome_iff.mp (by rw [hme]; rfl)

theorem query_ok_fields (inp : SearchInput) (top_k rerank_k : ℕ) (alpha : ℚ)
    (systemPrompt : Str) (gen : GenService) (question suffix : Str) (gf : Bool)
    (raw : Str)
    (h : gen.primary (promptOf systemPrompt
        (contextText (HybridRetriever.search inp top_k rerank_k alpha))
        question suffix) = Except.ok raw) :
    RAGPipeline.query inp top_k rerank_k alpha systemPrompt gen question suffix gf
      = { answer := cleanAnswer raw,
          sources := sourcesOf (HybridRetriever.search inp top_k rerank_k alpha),
          evidence_map := extractEvidenceMap (cleanAnswer raw)
            (sourcesOf (HybridRetriever.search inp top_k rerank_k alpha)),
          has_external_knowledge :=
            hasSubL ("[External Knowledge]".toList) (cleanAnswer raw)
              || hasSubL ("[External]".toList) (cleanAnswer raw),
          uncited_warning := checkForUncitedClaims (cleanAnswer raw),
          followup_questions :=
            if gf then
              generateFollowups gen.followup (followupPrompt question
                (cleanAnswer raw)
                (contextText (HybridRetriever.search inp top_k rerank_k alpha)))
            else [] } := by
  unfold RAGPipeline.query
  simp only [h]

theorem Matches.le_length {r : RE} {w : Bool} {cs : Str} {j : ℕ} {w2 : Bool}
    (h : Matches r w cs j w2) : j ≤ cs.length := by
  induction h with
  | eps a b => omega
  | lit a c rest => simp
  | cls a p c rest hp => simp
  | optSome a r0 cs0 j0 b hm ih => exact ih
  | optNone a r0 cs0 => omega
  | cat a r1 r2 cs0 j1 w1 j2 b h1 h2 ih1 ih2 =>
    rw [List.length_drop] at ih2
    omega
  | atLeast a n p cs0 j0 hj1 hjn hjlen hcls => exact hjlen
  | wordB a cs0 hw => omega

theorem wbAt_drop (cs : Str) (n m : ℕ) : wbAt (cs.drop n) m = wbAt cs (n + m) := by
  unfold wbAt
  rw [List.drop_drop]

theorem atLeastAux_sound {α : Type} (n : ℕ) (k : Option Char → Str → Option α) :
    ∀ (crev rest : Str) (out : α), atLeastAux n k crev rest = some out →
      ∃ j, 1 ≤ j ∧ n ≤ j ∧ j ≤ crev.length ∧
        k (some (crev.reverse.getD (j - 1) ' ')) (crev.reverse.drop j ++ rest)
          = some out := by
  intro crev
  induction crev with
  | nil => intro rest out h; exact absurd h (by simp [atLeastAux])
  | cons c crev ih =>
    intro rest out h
    simp only [atLeastAux] at h
    rcases hfull : (if n ≤ crev.length + 1 then k (some c) rest else none) with _ | v
    · rw [hfull] at h
      simp only [Option.orElse] at h
      obtain ⟨j, hj1, hjn, hjlen, hk⟩ := ih (c :: rest) out h
      refine ⟨j, hj1, hjn, by simp; omega, ?_⟩
      have hlt : j - 1 < crev.reverse.length := by
        rw [List.length_reverse]; omega
      have hget : (c :: crev).reverse.getD (j - 1) ' '
          = crev.reverse.getD (j - 1) ' ' := by
        rw [List.reverse_cons, List.getD_append _ _ _ _ hlt]
      have hle : j ≤ crev.reverse.length := by
        rw [List.length_reverse]; exact hjlen
      have hdrop : (c :: crev).reverse.drop j ++ rest
          = crev.reverse.drop j ++ (c :: rest) := by
        rw [List.reverse_cons, List.drop_append_of_le_length hle]
        simp
      rw [hget, hdrop]
      exact hk
    · rw [hfull] at h
      simp only [Option.orElse] at h
      cases h
      split at hfull
      · rename_i hn
        refine ⟨crev.length + 1, by omega, by omega, by simp, ?_⟩
        have hge : crev.reverse.length ≤ crev.length + 1 - 1 := by
          rw [List.length_reverse]; omega
        have hget : (c :: crev).reverse.getD (crev.length + 1 - 1) ' ' = c := by
          rw [List.reverse_cons, List.getD_append_right _ _ _ _ hge]
          simp
        have hlen2 : ((c :: crev).reverse).length ≤ crev.length + 1 := by simp
        have hdrop : (c :: crev).reverse.drop (crev.length + 1) ++ rest = rest := by
          rw [List.drop_of_length_le hlen2]
          simp
        rw [hget, hdrop]
        exact hfull
      · exact absurd hfull (by simp)

theorem takeWhile_eq_take (p : Char → Bool) (cs : Str) :
    cs.takeWhile p = cs.take (cs.takeWhile p).length :=
  List.prefix_iff_eq_take.mp ( List.takeWhile_prefix p)

theorem dropWhile_eq_drop (p : Char → Bool) (cs : Str) :
    cs.dropWhile p = cs.drop (cs.takeWhile p).length := by
  have h := List.takeWhile_append_dropWhile p cs
  have h2 : cs.takeWhile p ++ cs.drop (cs.takeWhile p).length = cs := by
    conv_rhs => rw [← List.take_append_drop (cs.takeWhile p).length cs]
    rw [← takeWhile_eq_take]
  exact List.append_cancel_left (h.trans h2.symm)

theorem takeWhile_take_of_le (p : Char → Bool) (cs : Str) (j : ℕ)
    (hj : j ≤ (cs.takeWhile p).length) :
    (cs.takeWhile p).take j = cs.take j := by
  conv_lhs => rw [takeWhile_eq_take p cs]
  rw [List.take_take, Nat.min_eq_left hj]

theorem takeWhile_getD_of_lt (p : Char → Bool) (cs : Str) (i : ℕ) (d : Char)
    (hi : i < (cs.takeWhile p).length) :
    (cs.takeWhile p).getD i d = cs.getD i d := by
  conv_lhs => rw [takeWhile_eq_take p cs]
  simp only [List.getD_eq_getElem?_getD]
  rw [List.getElem?_take_of_lt hi]

theorem drop_of_le_takeWhile (p : Char → Bool) (cs : Str) (j : ℕ)
    (hj : j ≤ (cs.takeWhile p).length) :
    (cs.takeWhile p).drop j ++ cs.drop (cs.takeWhile p).length = cs.drop j := by
  conv_rhs => rw [← List.takeWhile_append_dropWhile p cs]
  rw [List.drop_append_of_le_length hj, dropWhile_eq_drop p cs]

theorem mem_take_of_le_takeWhile {p : Char → Bool} {cs : Str} {j : ℕ}
    (hj : j ≤ (cs.takeWhile p).length) : ∀ c ∈ cs.take j, p c = true := by
  intro c hc
  rw [← takeWhile_take_of_le p cs j hj] at hc
  exact List.mem_takeWhile_imp ((List.take_sublist j (cs.takeWhile p)).mem hc)

/-- Soundness of the interpreter: a successful run is explained by a `Matches`
derivation feeding the continuation the residual input and exit wordness. -/
theorem matchRE_sound {α : Type} (r : RE) :
    ∀ (prev : Option Char) (cs : Str) (k : Option Char → Str → Option α)
      (out : α), matchRE r prev cs k = some out →
    ∃ j p2, Matches r (wbOf prev) cs j (wbOf p2) ∧
      k p2 (cs.drop j) = some out := by
  induction r with
  | eps =>
    intro prev cs k out h
    exact ⟨0, prev, Matches.eps _ _, h⟩
  | lit c =>
    intro prev cs k out h
    match cs with
    | [] => exact absurd h (by simp [matchRE])
    | x :: rest =>
      simp only [matchRE] at h
      split at h
      · rename_i hx
        subst hx
        exact ⟨1, some x, Matches.lit _ _ _, h⟩
      · exact absurd h (by simp)
  | cls p =>
    intro prev cs k out h
    match cs with
    | [] => exact absurd h (by simp [matchRE])
    | x :: rest =>
      simp only [matchRE] at h
      split at h
      · rename_i hx
        exact ⟨1, some x, Matches.cls _ _ _ _ hx, h⟩
      · exact absurd h (by simp)
  | opt r ih =>
    intro prev cs k out h
    simp only [matchRE] at h
    rcases hm : matchRE r prev cs k with _ | v
    · rw [hm] at h
      simp only [Option.orElse] at h
      exact ⟨0, prev, Matches.optNone _ _ _, h⟩
    · rw [hm] at h
      simp only [Option.orElse] at h
      obtain rfl := Option.some.inj h
      obtain ⟨j, p2, hM, hk⟩ := ih prev cs k v hm
      exact ⟨j, p2, Matches.optSome _ _ _ _ _ hM, hk⟩
  | cat r1 r2 ih1 ih2 =>
    intro prev cs k out h
    simp only [matchRE] at h
    obtain ⟨j1, p1, hM1, hk1⟩ := ih1 prev cs _ out h
    obtain ⟨j2, p2, hM2, hk2⟩ := ih2 p1 (cs.drop j1) k out hk1
    rw [List.drop_drop] at hk2
    exact ⟨j1 + j2, p2, Matches.cat _ _ _ _ _ _ _ _ hM1 hM2, hk2⟩
  | atLeastCls n p =>
    intro prev cs k out h
    simp only [matchRE] at h
    obtain ⟨j, hj1, hjn, hjlen, hk⟩ := atLeastAux_sound n k _ _ out h
    rw [List.reverse_reverse] at hk
    rw [List.length_reverse] at hjlen
    have hjc : j ≤ cs.length :=
      hjlen.trans ( List.takeWhile_prefix p).sublist.length_le
    have hmem := mem_take_of_le_takeWhile hjlen
    rw [takeWhile_getD_of_lt p cs (j - 1) ' ' (by omega),
        drop_of_le_takeWhile p cs j hjlen] at hk
    exact ⟨j, some (cs.getD (j - 1) ' '),
      Matches.atLeast _ n p cs j hj1 hjn hjc hmem, hk⟩
  | wordB =>
    intro prev cs k out h
    simp only [matchRE] at h
    split at h
    · rename_i hw
      exact ⟨0, prev, Matches.wordB _ _ (by simpa using hw), h⟩
    · exact absurd h (by simp)

theorem orElse_ne_none {α : Type} {a : Option α} {f : Unit → Option α}
    (h : a = none → f () ≠ none) : a.orElse f ≠ none := by
  match a with
  | some v => simp [Option.orElse]
  | none => simpa [Option.orElse] using h rfl

theorem orElse_ne_none_left {α : Type} {a : Option α} (f : Unit → Option α)
    (h : a ≠ none) : a.orElse f ≠ none := by
  match a with
  | some v => simp [Option.orElse]
  | none => exact absurd rfl h

theorem le_length_takeWhile_of_take (p : Char → Bool) :
    ∀ (cs : Str) (j : ℕ), j ≤ cs.length → (∀ c ∈ cs.take j, p c = true) →
      j ≤ (cs.takeWhile p).length := by
  intro cs
  induction cs with
  | nil => intro j hj _; simpa using hj
  | cons c cs ih =>
    intro j hj hall
    match j with
    | 0 => omega
    | j + 1 =>
      have hc : p c = true := hall c (by simp)
      rw [List.takeWhile_cons_of_pos hc]
      simp only [List.length_cons]
      have hrec := ih j (by simpa using hj)
        (fun x hx => hall x (by
          rw [List.take_succ_cons]
          exact List.mem_cons_of_mem c hx))
      omega

theorem atLeastAux_complete {α : Type} (n : ℕ)
    (k : Option Char → Str → Option α) :
    ∀ (crev rest : Str) (j : ℕ), 1 ≤ j → n ≤ j → j ≤ crev.length →
      k (some (crev.reverse.getD (j - 1) ' '))
        (crev.reverse.drop j ++ rest) ≠ none →
      atLeastAux n k crev rest ≠ none := by
  intro crev
  induction crev with
  | nil => intro rest j hj1 _ hjlen _; simp at hjlen; omega
  | cons c crev ih =>
    intro rest j hj1 hjn hjlen hk
    simp only [atLeastAux]
    rcases Nat.lt_or_ge j (crev.length + 1) with hlt | hge
    · apply orElse_ne_none
      intro _
      have hle : j ≤ crev.length := by omega
      have hlt2 : j - 1 < crev.reverse.length := by
        rw [List.length_reverse]; omega
      have hle2 : j ≤ crev.reverse.length := by
        rw [List.length_reverse]; omega
      have hget : (c :: crev).reverse.getD (j - 1) ' '
          = crev.reverse.getD (j - 1) ' ' := by
        rw [List.reverse_cons, List.getD_append _ _ _ _ hlt2]
      have hdrop : (c :: crev).reverse.drop j ++ rest
          = crev.reverse.drop j ++ (c :: rest) := by
        rw [List.reverse_cons, List.drop_append_of_le_length hle2]
        simp
      rw [hget, hdrop] at hk
      exact ih (c :: rest) j hj1 hjn hle hk
    · have hj : j = crev.length + 1 := by simp at hjlen; omega
      subst hj
      rw [if_pos (by omega)]
      have hge2 : crev.reverse.length ≤ crev.length + 1 - 1 := by
        rw [List.length_reverse]; omega
      have hget : (c :: crev).reverse.getD (crev.length + 1 - 1) ' '
          = c := by
        rw [List.reverse_cons, List.getD_append_right _ _ _ _ hge2]
        simp [List.length_reverse]
      have hlen2 : ((c :: crev).reverse).length ≤ crev.length + 1 := by simp
      have hdrop : (c :: crev).reverse.drop (crev.length + 1) ++ rest
          = rest := by
        rw [List.drop_of_length_le hlen2]
        simp
      rw [hget, hdrop] at hk
      exact orElse_ne_none_left _ hk

/-- Completeness for failure detection: if some `Matches` derivation exists
whose residual makes the continuation succeed for every exit character of the
right wordness, the interpreter cannot return `none`. -/
theorem matchRE_complete {α : Type} (r : RE) :
    ∀ (prev : Option Char) (cs : Str) (j : ℕ) (w2 : Bool)
      (k : Option Char → Str → Option α),
    Matches r (wbOf prev) cs j w2 →
    (∀ p2, wbOf p2 = w2 → k p2 (cs.drop j) ≠ none) →
    matchRE r prev cs k ≠ none := by
  induction r with
  | eps =>
    intro prev cs j w2 k hM hk
    cases hM
    exact hk prev rfl
  | lit c =>
    intro prev cs j w2 k hM hk
    cases hM
    simp only [matchRE]
    rw [if_pos trivial]
    exact hk (some c) rfl
  | cls p =>
    intro prev cs j w2 k hM hk
    cases hM
    rename_i rest hp
    simp only [matchRE]
    rw [if_pos hp]
    exact hk (some _) rfl
  | opt r ih =>
    intro prev cs j w2 k hM hk
    simp only [matchRE]
    cases hM with
    | optSome _ _ _ _ _ hsub =>
      exact orElse_ne_none_left _ (ih prev cs j w2 k hsub hk)
    | optNone =>
      apply orElse_ne_none
      intro _
      exact hk prev rfl
  | cat r1 r2 ih1 ih2 =>
    intro prev cs j w2 k hM hk
    simp only [matchRE]
    cases hM with
    | cat _ _ _ _ j1 w1 j2 _ h1 h2 =>
      apply ih1 prev cs j1 w1 _ h1
      intro p1 hp1
      rw [← hp1] at h2
      apply ih2 p1 (cs.drop j1) j2 w2 k h2
      intro p2 hp2
      rw [List.drop_drop]
      exact hk p2 hp2
  | atLeastCls n p =>
    intro prev cs j w2 k hM hk
    simp only [matchRE]
    cases hM
    rename_i hj1 hjn hjlen hall
    · have htl : j ≤ (cs.takeWhile p).length :=
        le_length_takeWhile_of_take p cs j hjlen hall
      apply atLeastAux_complete n k _ _ j hj1 hjn
        (by rw [List.length_reverse]; exact htl)
      rw [List.reverse_reverse,
        takeWhile_getD_of_lt p cs (j - 1) ' ' (by omega),
        drop_of_le_takeWhile p cs j htl]
      exact hk (some (cs.getD (j - 1) ' ')) rfl
  | wordB =>
    intro prev cs j w2 k hM hk
    cases hM
    rename_i hw
    simp only [matchRE]
    rw [if_pos hw]
    exact hk prev rfl

theorem wbAt_lt (cs : Str) (i : ℕ) (h : i < cs.length) :
    wbAt cs i = isWordA (cs.getD i ' ') := by
  unfold wbAt
  rw [List.drop_eq_getElem_cons h, List.getD_eq_getElem?_getD,
    List.getElem?_eq_getElem h]
  rfl

theorem wbAt_ge (cs : Str) (i : ℕ) (h : cs.length ≤ i) : wbAt cs i = false := by
  unfold wbAt
  rw [List.drop_of_length_le h]

/-- A successful position attempt is certified by a derivation whose consumed
count and exit wordness agree with the returned lookbehind. -/
theorem tryRE_some {r : RE} {prev : Option Char} {cs : Str} {p : Option Char}
    {kk : ℕ} (h : tryRE r prev cs = some (p, kk)) :
    Matches r (wbOf prev) cs kk (wbOf p) ∧ kk ≤ cs.length := by
  unfold tryRE at h
  rcases hm : matchRE r prev cs (fun p rem => some (p, rem)) with _ | pr
  · rw [hm] at h; exact absurd h (by simp)
  · rw [hm] at h
    obtain ⟨p0, rem⟩ := pr
    simp only [Option.some.injEq, Prod.mk.injEq] at h
    obtain ⟨hp, hkk⟩ := h
    obtain ⟨j, p2, hM, hk⟩ := matchRE_sound r prev cs _ (p0, rem) hm
    simp only [Option.some.injEq, Prod.mk.injEq] at hk
    obtain ⟨hp2, hrem⟩ := hk
    have hjle : j ≤ cs.length := hM.le_length
    have hkj : kk = j := by
      subst hkk hrem
      rw [List.length_drop]
      omega
    subst hkj hp hp2
    exact ⟨hM, hjle⟩

/-- If any derivation exists at this position, the attempt does not fail. -/
theorem tryRE_ne_none {r : RE} {prev : Option Char} {cs : Str} {j : ℕ}
    {w2 : Bool} (hM : Matches r (wbOf prev) cs j w2) :
    tryRE r prev cs ≠ none := by
  unfold tryRE
  have hne := matchRE_complete r prev cs j w2 (fun p rem => some (p, rem)) hM
    (fun p2 _ => by simp)
  rcases hm : matchRE r prev cs (fun p rem => some (p, rem)) with _ | pr
  · exact absurd hm hne
  · obtain ⟨p0, rem⟩ := pr
    simp

/-- Exit wordness is determined by the consumed span: it equals the entry
wordness for an empty match and the wordness of the last consumed character
otherwise. -/
theorem Matches.final_ctx {r : RE} {w : Bool} {cs : Str} {j : ℕ} {w2 : Bool}
    (h : Matches r w cs j w2) :
    (j = 0 ∧ w2 = w) ∨ (1 ≤ j ∧ w2 = wbAt cs (j - 1)) := by
  induction h with
  | eps a b => exact Or.inl ⟨rfl, rfl⟩
  | lit a c rest =>
    refine Or.inr ⟨Nat.le_refl 1, ?_⟩
    rw [wbAt_lt _ _ (by simp)]
    rfl
  | cls a p c rest hp =>
    refine Or.inr ⟨Nat.le_refl 1, ?_⟩
    rw [wbAt_lt _ _ (by simp)]
    rfl
  | optSome a r0 cs0 j0 b hm ih => exact ih
  | optNone a r0 cs0 => exact Or.inl ⟨rfl, rfl⟩
  | cat a r1 r2 cs0 j1 w1 j2 b h1 h2 ih1 ih2 =>
    rcases ih2 with ⟨hz, hw⟩ | ⟨h1j, hw⟩
    · subst hz
      rcases ih1 with ⟨hz1, hw1⟩ | ⟨h1j1, hw1⟩
      · subst hz1
        exact Or.inl ⟨rfl, hw.trans hw1⟩
      · refine Or.inr ⟨by omega, ?_⟩
        rw [hw, hw1]
        congr 1
    · refine Or.inr ⟨by omega, ?_⟩
      rw [hw, wbAt_drop]
      congr 1
      omega
  | atLeast a n p cs0 j0 hj1 hjn hjlen hall =>
    refine Or.inr ⟨hj1, ?_⟩
    rw [wbAt_lt _ _ (by omega)]
  | wordB a cs0 hw => exact Or.inl ⟨rfl, rfl⟩

theorem le_length_of_take_eq {cs1 cs2 : Str} {j : ℕ} (hlen : j ≤ cs1.length)
    (htake : cs1.take j = cs2.take j) : j ≤ cs2.length := by
  have h1 : (cs1.take j).length = j := by rw [List.length_take]; omega
  rw [htake, List.length_take] at h1
  omega

theorem take_eq_of_take_eq_le {cs1 cs2 : Str} {j m : ℕ} (hm : m ≤ j)
    (htake : cs1.take j = cs2.take j) : cs1.take m = cs2.take m := by
  have h1 : (cs1.take j).take m = (cs2.take j).take m := by rw [htake]
  rwa [List.take_take, List.take_take, Nat.min_eq_left hm] at h1

theorem getD_eq_of_take {cs1 cs2 : Str} {j i : ℕ} (hij : i < j)
    (htake : cs1.take j = cs2.take j) (d : Char) :
    cs1.getD i d = cs2.getD i d := by
  rw [List.getD_eq_getElem?_getD, List.getD_eq_getElem?_getD,
    ← List.getElem?_take_of_lt hij, htake, List.getElem?_take_of_lt hij]

theorem wbAt_eq_of_take {cs1 cs2 : Str} {j i : ℕ} (hij : i < j)
    (hlen : j ≤ cs1.length) (hlen2 : j ≤ cs2.length)
    (htake : cs1.take j = cs2.take j) : wbAt cs1 i = wbAt cs2 i := by
  rw [wbAt_lt _ _ (by omega), wbAt_lt _ _ (by omega),
    getD_eq_of_take hij htake ' ']

/-- Locality: a derivation only inspects the consumed prefix and the wordness
at the exit position, so it transfers to any text agreeing there. -/
theorem Matches.local_take {r : RE} {w : Bool} {cs1 : Str} {j : ℕ} {w2 : Bool}
    (h : Matches r w cs1 j w2) :
    ∀ cs2 : Str, cs1.take j = cs2.take j → wbAt cs1 j = wbAt cs2 j →
    Matches r w cs2 j w2 := by
  induction h with
  | eps a b => intro cs2 _ _; exact Matches.eps a cs2
  | lit a c rest =>
    intro cs2 htake hwb
    match cs2, htake with
    | [], htake => exact absurd htake (by simp)
    | c2 :: rest2, htake =>
      have hc : c = c2 := by simpa using htake
      subst hc
      exact Matches.lit a c rest2
  | cls a p c rest hp =>
    intro cs2 htake hwb
    match cs2, htake with
    | [], htake => exact absurd htake (by simp)
    | c2 :: rest2, htake =>
      have hc : c = c2 := by simpa using htake
      subst hc
      exact Matches.cls a p c rest2 hp
  | optSome a r0 cs0 j0 b hm ih =>
    intro cs2 htake hwb
    exact Matches.optSome a r0 cs2 j0 b (ih cs2 htake hwb)
  | optNone a r0 cs0 => intro cs2 _ _; exact Matches.optNone a r0 cs2
  | cat a r1 r2 cs0 j1 w1 j2 b h1 h2 ih1 ih2 =>
    intro cs2 htake hwb
    have hlen : j1 + j2 ≤ cs0.length :=
      (Matches.cat a r1 r2 cs0 j1 w1 j2 b h1 h2).le_length
    have hlen2 : j1 + j2 ≤ cs2.length := le_length_of_take_eq hlen htake
    have htake1 : cs0.take j1 = cs2.take j1 :=
      take_eq_of_take_eq_le (by omega) htake
    have hwb1 : wbAt cs0 j1 = wbAt cs2 j1 := by
      rcases Nat.eq_zero_or_pos j2 with hz | hpos
      · subst hz
        simpa using hwb
      · exact wbAt_eq_of_take (by omega) hlen hlen2 htake
    have htake2 : (cs0.drop j1).take j2 = (cs2.drop j1).take j2 := by
      rw [List.take_drop, List.take_drop, htake]
    have hwb2 : wbAt (cs0.drop j1) j2 = wbAt (cs2.drop j1) j2 := by
      rw [wbAt_drop, wbAt_drop]
      exact hwb
    exact Matches.cat a r1 r2 cs2 j1 w1 j2 b (ih1 cs2 htake1 hwb1)
      (ih2 (cs2.drop j1) htake2 hwb2)
  | atLeast a n p cs0 j0 hj1 hjn hjlen hall =>
    intro cs2 htake hwb
    have hlen2 : j0 ≤ cs2.length := le_length_of_take_eq hjlen htake
    have hall2 : ∀ c ∈ cs2.take j0, p c = true := by
      rw [← htake]
      exact hall
    have hgd : cs0.getD (j0 - 1) ' ' = cs2.getD (j0 - 1) ' ' :=
      getD_eq_of_take (by omega) htake ' '
    have hM := Matches.atLeast a n p cs2 j0 hj1 hjn hlen2 hall2
    rwa [← hgd] at hM
  | wordB a cs0 hw =>
    intro cs2 htake hwb
    refine Matches.wordB a cs2 ?_
    rw [← hwb]
    exact hw

theorem wbAt_append_right (A B : Str) (m : ℕ) :
    wbAt (A ++ B) (A.length + m) = wbAt B m := by
  unfold wbAt
  rw [List.drop_append]

theorem wbAt_append_left {A : Str} (B : Str) {n : ℕ} (h : n < A.length) :
    wbAt (A ++ B) n = wbAt A n := by
  rw [wbAt_lt _ _ (by simp; omega), wbAt_lt _ _ h,
    List.getD_eq_getElem?_getD, List.getD_eq_getElem?_getD,
    List.getElem?_append_left h]

theorem chars_of_matches {q : Char → Bool} {r : RE} {w : Bool} {cs : Str}
    {j : ℕ} {w2 : Bool} (h : Matches r w cs j w2) (hq : reChars q r) :
    ∀ c ∈ cs.take j, q c = true := by
  induction h with
  | eps a b => simp
  | lit a c rest =>
    intro x hx
    rw [List.take_succ_cons, List.take_zero] at hx
    simp only [List.mem_singleton] at hx
    subst hx
    exact hq
  | cls a p c rest hp =>
    intro x hx
    rw [List.take_succ_cons, List.take_zero] at hx
    simp only [List.mem_singleton] at hx
    subst hx
    exact hq _ hp
  | optSome a r0 cs0 j0 b hm ih => exact ih hq
  | optNone a r0 cs0 => simp
  | cat a r1 r2 cs0 j1 w1 j2 b h1 h2 ih1 ih2 =>
    intro x hx
    rw [List.take_add] at hx
    rcases List.mem_append.mp hx with hx1 | hx2
    · exact ih1 hq.1 x hx1
    · exact ih2 hq.2 x hx2
  | atLeast a n p cs0 j0 hj1 hjn hjlen hall =>
    intro x hx
    exact hq x (hall x hx)
  | wordB a cs0 hw => simp

theorem needs_of_matches {q : Char → Bool} {r : RE} {w : Bool} {cs : Str}
    {j : ℕ} {w2 : Bool} (h : Matches r w cs j w2) (hq : reNeeds q r) :
    ∃ c ∈ cs.take j, q c = true := by
  induction h with
  | eps a b => exact absurd hq id
  | lit a c rest =>
    exact ⟨c, by rw [List.take_succ_cons, List.take_zero]; simp, hq⟩
  | cls a p c rest hp =>
    exact ⟨c, by rw [List.take_succ_cons, List.take_zero]; simp, hq c hp⟩
  | optSome a r0 cs0 j0 b hm ih => exact absurd hq id
  | optNone a r0 cs0 => exact absurd hq id
  | cat a r1 r2 cs0 j1 w1 j2 b h1 h2 ih1 ih2 =>
    rw [List.take_add]
    rcases hq with hq1 | hq2
    · obtain ⟨c, hc, hcq⟩ := ih1 hq1
      exact ⟨c, List.mem_append.mpr (Or.inl hc), hcq⟩
    · obtain ⟨c, hc, hcq⟩ := ih2 hq2
      exact ⟨c, List.mem_append.mpr (Or.inr hc), hcq⟩
  | atLeast a n p cs0 j0 hj1 hjn hjlen hall =>
    have hne : cs0.take j0 ≠ [] := by
      have : (cs0.take j0).length = j0 := by rw [List.length_take]; omega
      intro hcon
      rw [hcon] at this
      simp at this
      omega
    obtain ⟨c, hc⟩ := List.exists_mem_of_ne_nil _ hne
    exact ⟨c, hc, hq.2 c (hall c hc)⟩
  | wordB a cs0 hw => exact absurd hq id

/-- A pattern with a mandatory character consumes at least one character. -/
theorem needs_pos {q : Char → Bool} {r : RE} {w : Bool} {cs : Str} {j : ℕ}
    {w2 : Bool} (h : Matches r w cs j w2) (hq : reNeeds q r) : 1 ≤ j := by
  obtain ⟨c, hc, _⟩ := needs_of_matches h hq
  rcases Nat.eq_zero_or_pos j with hz | hpos
  · subst hz
    simp at hc
  · exact hpos

theorem matches_cat_inv {r1 r2 : RE} {w : Bool} {cs : Str} {j : ℕ} {w2 : Bool}
    (h : Matches (.cat r1 r2) w cs j w2) :
    ∃ j1 w1 j2, j = j1 + j2 ∧ Matches r1 w cs j1 w1 ∧
      Matches r2 w1 (cs.drop j1) j2 w2 := by
  cases h
  rename_i j1 w1 j2 h1 h2
  exact ⟨j1, w1, j2, rfl, h1, h2⟩

theorem matches_wordB_inv {w : Bool} {cs : Str} {j : ℕ} {w2 : Bool}
    (h : Matches .wordB w cs j w2) :
    j = 0 ∧ w2 = w ∧ (w != wbAt cs 0) = true := by
  cases h
  rename_i hw
  exact ⟨rfl, rfl, hw⟩

theorem matches_eps_inv {w : Bool} {cs : Str} {j : ℕ} {w2 : Bool}
    (h : Matches .eps w cs j w2) : j = 0 ∧ w2 = w := by
  cases h
  exact ⟨rfl, rfl⟩

/-- A pattern opening with a word-boundary anchor matches only at positions
whose wordness differs from the incoming context. -/
theorem leading_boundary {r0 : RE} {w : Bool} {cs : Str} {j : ℕ} {w2 : Bool}
    (h : Matches (.cat .wordB r0) w cs j w2) : (w != wbAt cs 0) = true := by
  obtain ⟨j1, w1, j2, hj, h1, h2⟩ := matches_cat_inv h
  obtain ⟨_, _, hw⟩ := matches_wordB_inv h1
  exact hw

theorem trailing_boundary {r : RE} (ht : trailingB r) :
    ∀ {w : Bool} {cs : Str} {j : ℕ} {w2 : Bool}, Matches r w cs j w2 →
    (w2 != wbAt cs j) = true := by
  induction r with
  | eps => exact ht.elim
  | lit c => exact ht.elim
  | cls p => exact ht.elim
  | opt r ih => exact ht.elim
  | atLeastCls n p => exact ht.elim
  | wordB => exact ht.elim
  | cat r1 r2 ih1 ih2 =>
    intro w cs j w2 h
    obtain ⟨j1, w1, j2, hj, h1, h2⟩ := matches_cat_inv h
    rcases ht with ⟨hb, he⟩ | ht2
    · subst hb he
      obtain ⟨hz1, hww, hw⟩ := matches_wordB_inv h1
      obtain ⟨hz2, hw2⟩ := matches_eps_inv h2
      subst hz1 hz2 hj
      rw [hw2, hww]
      simpa using hw
    · have hres := ih2 ht2 h2
      subst hj
      rw [wbAt_drop] at hres
      exact hres

theorem notBracket_of_class {p : Char → Bool} (h1 : p '[' = false)
    (h2 : p ']' = false) : ∀ c, p c = true → notBracket c = true := by
  intro c hc
  unfold notBracket
  rcases hb1 : c == '[' with _ | _
  · rcases hb2 : c == ']' with _ | _
    · rfl
    · have hcb : c = ']' := eq_of_beq hb2
      subst hcb
      rw [hc] at h2
      cases h2
  · have hcb : c = '[' := eq_of_beq hb1
    subst hcb
    rw [hc] at h1
    cases h1

theorem nbDigit : ∀ c, isDigitA c = true → notBracket c = true :=
  notBracket_of_class (by decide) (by decide)

theorem nbLocal : ∀ c, isLocalCh c = true → notBracket c = true :=
  notBracket_of_class (by decide) (by decide)

theorem nbDomain : ∀ c, isDomainCh c = true → notBracket c = true :=
  notBracket_of_class (by decide) (by decide)

theorem nbTld : ∀ c, isTldCh c = true → notBracket c = true :=
  notBracket_of_class (by decide) (by decide)

theorem nbSepPh : ∀ c, isSepPh c = true → notBracket c = true :=
  notBracket_of_class (by decide) (by decide)

theorem nbSepCc : ∀ c, isSepCc c = true → notBracket c = true :=
  notBracket_of_class (by decide) (by decide)

theorem emailRE_facts : PatFacts emailRE isAtSign := by
  refine ⟨?_, ?_, ?_, ⟨_, rfl⟩⟩
  · exact Or.inr (Or.inr (Or.inl (by decide : isAtSign '@' = true)))
  · exact ⟨trivial, nbLocal, (by decide : notBracket '@' = true), nbDomain,
      (by decide : notBracket '.' = true), nbTld, trivial, trivial⟩
  · exact Or.inr (Or.inr (Or.inr (Or.inr (Or.inr (Or.inr
      (Or.inl ⟨rfl, rfl⟩))))))

theorem phoneRE_facts : PatFacts phoneRE isDigitA := by
  refine ⟨?_, ?_, ?_, ⟨_, rfl⟩⟩
  · exact Or.inr (Or.inr (Or.inr (Or.inl (Or.inl (fun c h => h)))))
  · exact ⟨trivial,
      ⟨(by decide : notBracket '+' = true),
        (by decide : notBracket '1' = true), nbSepPh, trivial⟩,
      (by decide : notBracket '(' = true),
      ⟨nbDigit, nbDigit, nbDigit, trivial⟩,
      (by decide : notBracket ')' = true), nbSepPh,
      ⟨nbDigit, nbDigit, nbDigit, trivial⟩, nbSepPh,
      ⟨nbDigit, nbDigit, nbDigit, nbDigit, trivial⟩, trivial, trivial⟩
  · exact Or.inr (Or.inr (Or.inr (Or.inr (Or.inr (Or.inr (Or.inr (Or.inr
      (Or.inr (Or.inl ⟨rfl, rfl⟩)))))))))

theorem ssnRE_facts : PatFacts ssnRE isDigitA := by
  refine ⟨?_, ?_, ?_, ⟨_, rfl⟩⟩
  · exact Or.inr (Or.inl (Or.inl (fun c h => h)))
  · exact ⟨trivial, ⟨nbDigit, nbDigit, nbDigit, trivial⟩,
      (by decide : notBracket '-' = true), ⟨nbDigit, nbDigit, trivial⟩,
      (by decide : notBracket '-' = true),
      ⟨nbDigit, nbDigit, nbDigit, nbDigit, trivial⟩, trivial, trivial⟩
  · exact Or.inr (Or.inr (Or.inr (Or.inr (Or.inr (Or.inr
      (Or.inl ⟨rfl, rfl⟩))))))

theorem ccRE_facts : PatFacts ccRE isDigitA := by
  refine ⟨?_, ?_, ?_, ⟨_, rfl⟩⟩
  · exact Or.inr (Or.inl (Or.inl (fun c h => h)))
  · exact ⟨trivial, ⟨nbDigit, nbDigit, nbDigit, nbDigit, trivial⟩, nbSepCc,
      ⟨nbDigit, nbDigit, nbDigit, nbDigit, trivial⟩, nbSepCc,
      ⟨nbDigit, nbDigit, nbDigit, nbDigit, trivial⟩, nbSepCc,
      ⟨nbDigit, nbDigit, nbDigit, nbDigit, trivial⟩, trivial, trivial⟩
  · exact Or.inr (Or.inr (Or.inr (Or.inr (Or.inr (Or.inr (Or.inr (Or.inr
      (Or.inl ⟨rfl, rfl⟩))))))))

theorem NoM_nil {r : RE} {q : Char → Bool} (hq : reNeeds q r) (w : Bool) :
    NoM r w [] := by
  intro n j w2 hM
  have h1 := needs_pos hM hq
  have h2 := hM.le_length
  simp at h2
  omega

theorem ctxW_drop (w : Bool) (cs : Str) (k n : ℕ) :
    ctxW (ctxW w cs k) (cs.drop k) n = ctxW w cs (k + n) := by
  unfold ctxW
  rcases Nat.eq_zero_or_pos n with hz | hpos
  · subst hz
    simp
  · rw [if_neg (by omega), if_neg (by omega), wbAt_drop]
    congr 1
    omega

theorem NoM_drop {r : RE} {w : Bool} {cs : Str} (h : NoM r w cs) (k : ℕ) :
    NoM r (ctxW w cs k) (cs.drop k) := by
  intro n j w2 hM
  rw [ctxW_drop, List.drop_drop] at hM
  exact h (k + n) j w2 hM

theorem wbAt_cons_succ (x : Char) (xs : Str) (n : ℕ) :
    wbAt (x :: xs) (n + 1) = wbAt xs n := rfl

theorem NoM_cons {r : RE} {w : Bool} {c : Char} {Z : Str}
    (hZ : NoM r (isWordA c) Z)
    (h0 : ∀ j w2, ¬ Matches r w (c :: Z) j w2) : NoM r w (c :: Z) := by
  intro n j w2 hX
  match n with
  | 0 => exact h0 j w2 hX
  | 1 => exact hZ 0 j w2 hX
  | n + 2 => exact hZ (n + 1) j w2 hX

/-- Identity pass: when no position matches, a substitution pass is a no-op. -/
theorem substPiiF_id {r : RE} (T : Str) :
    ∀ (fuel : ℕ) (prev : Option Char) (cs : Str),
      NoM r (wbOf prev) cs → substPiiF r T fuel prev cs = cs := by
  intro fuel
  induction fuel with
  | zero => intro prev cs h; cases cs <;> rfl
  | succ fuel ih =>
    intro prev cs h
    match cs with
    | [] => rfl
    | c :: rest =>
      rcases ht : tryRE r prev (c :: rest) with _ | pk
      · have hshift : NoM r (wbOf (some c)) rest := NoM_drop h 1
        simp only [substPiiF, ht]
        rw [ih (some c) rest hshift]
      · obtain ⟨p, k⟩ := pk
        obtain ⟨hM, _⟩ := tryRE_some ht
        exact absurd hM (h 0 k (wbOf p))

/-- Head shape of a pass output: it starts with the token bracket or preserves
the wordness of the input head. -/
theorem substPiiF_head (r : RE) (T : Str) (hhead : T.head? = some '[') :
    ∀ (fuel : ℕ) (prev : Option Char) (cs : Str),
    (substPiiF r T fuel prev cs).head? = some '[' ∨
    wbAt (substPiiF r T fuel prev cs) 0 = wbAt cs 0 := by
  intro fuel prev cs
  match fuel, cs with
  | 0, cs => exact Or.inr (by cases cs <;> rfl)
  | fuel + 1, [] => exact Or.inr rfl
  | fuel + 1, c :: rest =>
    rcases ht : tryRE r prev (c :: rest) with _ | pk
    · simp only [substPiiF, ht]
      exact Or.inr rfl
    · obtain ⟨p, k⟩ := pk
      simp only [substPiiF, ht]
      left
      match T, hhead with
      | t :: ts, hh =>
        have htb : t = '[' := by simpa using hh
        subst htb
        rfl

theorem wbOf_prevAt : ∀ (pre : Str) (c : Char) (suf : Str),
    wbOf (prevAt (some c) pre) = wbAt (c :: (pre ++ suf)) pre.length
  | [], c, suf => rfl
  | d :: pre2, c, suf => by
    show wbOf (prevAt (some d) pre2)
      = wbAt (c :: d :: (pre2 ++ suf)) (pre2.length + 1)
    rw [wbAt_cons_succ]
    exact wbOf_prevAt pre2 d suf

/-- Decomposition of a pass output: either the pass was the identity, or the
input splits at the first match, before which the output copies the input. -/
theorem substPiiF_decomp (r : RE) (T : Str) :
    ∀ (fuel : ℕ) (prev : Option Char) (cs : Str),
    substPiiF r T fuel prev cs = cs ∨
    ∃ pre suf p2 km Z2, cs = pre ++ suf ∧
      tryRE r (prevAt prev pre) suf = some (p2, km) ∧
      substPiiF r T fuel prev cs = pre ++ T ++ Z2 := by
  intro fuel
  induction fuel with
  | zero => intro prev cs; exact Or.inl (by cases cs <;> rfl)
  | succ fuel ih =>
    intro prev cs
    match cs with
    | [] => exact Or.inl rfl
    | c :: rest =>
      rcases ht : tryRE r prev (c :: rest) with _ | pk
      · rcases ih (some c) rest with hid |
          ⟨pre, suf, p2, km, Z2, hsplit, htry, hout⟩
        · left
          simp only [substPiiF, ht, hid]
        · right
          refine ⟨c :: pre, suf, p2, km, Z2, by rw [hsplit, List.cons_append], htry, ?_⟩
          simp only [substPiiF, ht, hout]
          rfl
      · obtain ⟨p, k⟩ := pk
        right
        refine ⟨[], c :: rest, p, k,
          substPiiF r T fuel p ((c :: rest).drop k), rfl, ht, ?_⟩
        simp only [substPiiF, ht]
        rfl

theorem getLast_getD {T : Str} {b : Char} (hlast : T.getLast? = some b)
    (d : Char) : T.getD (T.length - 1) d = b := by
  rw [List.getD_eq_getElem?_getD, ← List.getLast?_eq_getElem?, hlast]
  rfl

theorem ne_nil_of_getLast? {T : Str} {b : Char} (hlast : T.getLast? = some b) :
    T ≠ [] := by
  intro hcon
  subst hcon
  simp at hlast

/-- A match of a bracket-free pattern cannot begin inside the token: it would
either sit entirely inside the token, which lacks the mandatory character, or
overrun the closing bracket. -/
theorem no_match_in_token {r2 : RE} {q2 : Char → Bool} (hf : PatFacts r2 q2)
    {T : Str} (hlast : T.getLast? = some ']')
    (hq : ∀ c ∈ T, q2 c = false) {Y : Str} {n : ℕ} (hn : n < T.length)
    {w : Bool} {j : ℕ} {w2 : Bool}
    (hM : Matches r2 w ((T ++ Y).drop n) j w2) : False := by
  have hj1 : 1 ≤ j := needs_pos hM hf.needs
  rcases le_or_lt (n + j) T.length with hle | hgt
  · obtain ⟨ch, hch, hchq⟩ := needs_of_matches hM hf.needs
    have hchT : ch ∈ T := by
      rw [List.drop_append_of_le_length (by omega),
        List.take_append_of_le_length (by simp; omega)] at hch
      exact (List.drop_sublist n T).subset
        ((List.take_sublist j (T.drop n)).subset hch)
    rw [hq ch hchT] at hchq
    cases hchq
  · have hjlen := hM.le_length
    have hbr : (']' : Char) ∈ ((T ++ Y).drop n).take j := by
      apply List.getElem?_mem
      rw [List.getElem?_take_of_lt (by omega : T.length - 1 - n < j),
        List.getElem?_drop]
      have hidx : n + (T.length - 1 - n) = T.length - 1 := by omega
      rw [hidx, List.getElem?_append_left (by omega),
        ← List.getLast?_eq_getElem?, hlast]
    have hnb := chars_of_matches hM hf.chars ']' hbr
    exact absurd hnb (by decide)

/-- Appending the token in front of a safe suffix stays safe, for any entry
context: a match can start neither inside the token nor right after it. -/
theorem NoM_token_append {r2 : RE} {q2 : Char → Bool} (hf : PatFacts r2 q2)
    {T : Str} (hlast : T.getLast? = some ']')
    (hq : ∀ c ∈ T, q2 c = false) {Y : Str} {pw : Bool}
    (hY : NoM r2 pw Y) (hbr : pw = true → wbAt Y 0 = false) (w : Bool) :
    NoM r2 w (T ++ Y) := by
  have hTne : T ≠ [] := ne_nil_of_getLast? hlast
  have hTlen : 0 < T.length := List.length_pos.mpr hTne
  intro n j w2 hX
  rcases Nat.lt_or_ge n T.length with hn | hn
  · exact no_match_in_token hf hlast hq hn hX
  · obtain ⟨m, rfl⟩ : ∃ m, n = T.length + m := ⟨n - T.length, by omega⟩
    rw [List.drop_append] at hX
    match m with
    | 0 =>
      have hctx : ctxW w (T ++ Y) (T.length + 0) = false := by
        unfold ctxW
        rw [if_neg (by omega)]
        have hsh : T.length + 0 - 1 = T.length - 1 := by omega
        rw [hsh, wbAt_append_left _ (by omega), wbAt_lt _ _ (by omega),
          getLast_getD hlast]
        decide
      rw [hctx, List.drop_zero] at hX
      rcases hpw : pw with _ | _
      · rw [hpw] at hY
        exact hY 0 j w2 hX
      · obtain ⟨r0, hr0⟩ := hf.leading
        subst hr0
        have hlead := leading_boundary hX
        rw [hbr hpw] at hlead
        exact absurd hlead (by decide)
    | m + 1 =>
      have hctx : ctxW w (T ++ Y) (T.length + (m + 1)) = ctxW pw Y (m + 1) := by
        unfold ctxW
        rw [if_neg (by omega), if_neg (by omega)]
        have hsh : T.length + (m + 1) - 1 = T.length + m := by omega
        rw [hsh, wbAt_append_right]
        simp
      rw [hctx] at hX
      exact hY (m + 1) j w2 hX

/-- A match of `r2` at the head of a pass output transfers back to the head of
the pass input: the output copies the input up to the first replacement, and
the match cannot cross the replacement token's opening bracket. -/
theorem transfer_match {r1 : RE} {q1 : Char → Bool} (hf1 : PatFacts r1 q1)
    {r2 : RE} {q2 : Char → Bool} (hf2 : PatFacts r2 q2)
    {T : Str} (hhead : T.head? = some '[') (fuel : ℕ) (c : Char)
    (rest : Str) {w : Bool} {j : ℕ} {w2 : Bool}
    (hX : Matches r2 w (c :: substPiiF r1 T fuel (some c) rest) j w2) :
    ∃ j2 w3, Matches r2 w (c :: rest) j2 w3 := by
  rcases substPiiF_decomp r1 T fuel (some c) rest with hid |
    ⟨pre, suf, p2, km, Z2, hsplit, htry, hout⟩
  · rw [hid] at hX
    exact ⟨j, w2, hX⟩
  · rw [hout] at hX
    subst hsplit
    obtain ⟨hM1, hkmle⟩ := tryRE_some htry
    have hkm1 : 1 ≤ km := needs_pos hM1 hf1.needs
    have hsufne : 0 < suf.length := by omega
    obtain ⟨ts, hT⟩ : ∃ ts, T = '[' :: ts := by
      match T, hhead with
      | t :: ts0, hh =>
        exact ⟨ts0, by rw [show t = '[' from by simpa using hh]⟩
    have hTpos : 0 < T.length := by rw [hT]; simp
    have hcs1 : c :: (pre ++ T ++ Z2) = (c :: pre) ++ (T ++ Z2) := by simp
    rw [hcs1] at hX
    have hAlen : (c :: pre).length = pre.length + 1 := by simp
    have hjle : j ≤ (c :: pre).length := by
      by_contra hcon
      push_neg at hcon
      have hbr : ('[' : Char) ∈ ((c :: pre) ++ (T ++ Z2)).take j := by
        apply List.getElem?_mem
        rw [List.getElem?_take_of_lt hcon,
          List.getElem?_append_right (Nat.le_refl (c :: pre).length),
          Nat.sub_self, List.getElem?_append_left hTpos, hT]
        simp
      have hnb := chars_of_matches hX hf2.chars '[' hbr
      exact absurd hnb (by decide)
    have htake : ((c :: pre) ++ (T ++ Z2)).take j = ((c :: pre) ++ suf).take j := by
      rw [List.take_append_of_le_length hjle,
        List.take_append_of_le_length hjle]
    have hwb : wbAt ((c :: pre) ++ (T ++ Z2)) j = wbAt ((c :: pre) ++ suf) j := by
      rcases Nat.lt_or_ge j (c :: pre).length with hlt | hge
      · rw [wbAt_append_left _ hlt, wbAt_append_left _ hlt]
      · have hje : j = (c :: pre).length := by omega
        have h1 : wbAt ((c :: pre) ++ (T ++ Z2)) (c :: pre).length
            = wbAt (T ++ Z2) 0 := by
          have hx := wbAt_append_right (c :: pre) (T ++ Z2) 0
          simpa using hx
        have h2 : wbAt (T ++ Z2) 0 = false := by
          rw [hT]
          show isWordA '[' = false
          decide
        have h3 : wbAt ((c :: pre) ++ suf) (c :: pre).length
            = wbAt suf 0 := by
          have hx := wbAt_append_right (c :: pre) suf 0
          simpa using hx
        have htr := trailing_boundary hf2.trailing hX
        rw [hje] at htr
        rw [h1, h2] at htr
        have hw2 : w2 = true := by
          rcases hw2c : w2 with _ | _
          · rw [hw2c] at htr
            exact absurd htr (by decide)
          · rfl
        rcases hX.final_ctx with ⟨hz, _⟩ | ⟨_, hfc⟩
        · omega
        · have hpre1 : j - 1 = pre.length := by omega
          rw [hpre1] at hfc
          have h4 : wbAt ((c :: pre) ++ (T ++ Z2)) pre.length
              = wbAt (c :: pre) pre.length :=
            wbAt_append_left _ (by simp)
          have h5 : wbOf (prevAt (some c) pre)
              = wbAt ((c :: pre) ++ suf) pre.length := by
            rw [List.cons_append]
            exact wbOf_prevAt pre c suf
          have h6 : wbAt ((c :: pre) ++ suf) pre.length
              = wbAt (c :: pre) pre.length :=
            wbAt_append_left _ (by simp)
          have hctx_true : wbOf (prevAt (some c) pre) = true := by
            rw [h5, h6, ← h4, ← hfc, hw2]
          obtain ⟨r0, hr0⟩ := hf1.leading
          rw [hr0] at hM1
          have hlead := leading_boundary hM1
          rw [hctx_true] at hlead
          have hsuf0 : wbAt suf 0 = false := by
            rcases hs0 : wbAt suf 0 with _ | _
            · rfl
            · rw [hs0] at hlead
              exact absurd hlead (by decide)
          rw [hje, h1, h2, h3, hsuf0]
    refine ⟨j, w2, ?_⟩
    have hres := hX.local_take ((c :: pre) ++ suf) htake hwb
    rw [List.cons_append] at hres
    exact hres

/-- After a full pass of a pattern over the text, no occurrence of that same
pattern remains in the output. -/
theorem substPiiF_self {r : RE} {q : Char → Bool} (hf : PatFacts r q)
    {T : Str} (hhead : T.head? = some '[')
    (hlast : T.getLast? = some ']') (hq : ∀ c ∈ T, q c = false) :
    ∀ (fuel : ℕ) (prev : Option Char) (cs : Str), cs.length ≤ fuel →
      NoM r (wbOf prev) (substPiiF r T fuel prev cs) := by
  intro fuel
  induction fuel with
  | zero =>
    intro prev cs hlen
    have hc : cs = [] := List.eq_nil_of_length_eq_zero (by omega)
    subst hc
    exact NoM_nil hf.needs _
  | succ fuel ih =>
    intro prev cs hlen
    match cs with
    | [] => exact NoM_nil hf.needs _
    | c :: rest =>
      rcases ht : tryRE r prev (c :: rest) with _ | pk
      · simp only [substPiiF, ht]
        have hZ : NoM r (wbOf (some c)) (substPiiF r T fuel (some c) rest) :=
          ih (some c) rest (by simp at hlen; omega)
        apply NoM_cons hZ
        intro j w2 hXX
        obtain ⟨j2, w3, hX2⟩ := transfer_match hf hf hhead fuel c rest hXX
        exact tryRE_ne_none hX2 ht
      · obtain ⟨p, k⟩ := pk
        simp only [substPiiF, ht]
        obtain ⟨hM, hkle⟩ := tryRE_some ht
        have hk1 : 1 ≤ k := needs_pos hM hf.needs
        have hY : NoM r (wbOf p)
            (substPiiF r T fuel p ((c :: rest).drop k)) :=
          ih p ((c :: rest).drop k)
            (by rw [List.length_drop]; simp at hlen ⊢; omega)
        apply NoM_token_append hf hlast hq hY
        intro hp
        rcases substPiiF_head r T hhead fuel p ((c :: rest).drop k)
          with hh | hww
        · rcases hYv : substPiiF r T fuel p ((c :: rest).drop k)
            with _ | ⟨y, ys⟩
          · rw [hYv] at hh
            simp at hh
          · rw [hYv] at hh
            have hy : y = '[' := by simpa using hh
            subst hy
            show isWordA '[' = false
            decide
        · rw [hww, wbAt_drop]
          simp only [Nat.add_zero]
          have htr := trailing_boundary hf.trailing hM
          rw [hp] at htr
          rcases hv : wbAt (c :: rest) k with _ | _
          · rfl
          · rw [hv] at htr
            exact absurd htr (by decide)

/-- A pass of one pattern does not create occurrences of another pattern in a
text that had none, provided the replacement token is inert for the other
pattern. -/
theorem substPiiF_cross {r1 : RE} {q1 : Char → Bool} (hf1 : PatFacts r1 q1)
    {r2 : RE} {q2 : Char → Bool} (hf2 : PatFacts r2 q2)
    {T : Str} (hhead : T.head? = some '[')
    (hlast : T.getLast? = some ']') (hq : ∀ c ∈ T, q2 c = false) :
    ∀ (fuel : ℕ) (prev : Option Char) (cs : Str), cs.length ≤ fuel →
      NoM r2 (wbOf prev) cs →
      NoM r2 (wbOf prev) (substPiiF r1 T fuel prev cs) := by
  intro fuel
  induction fuel with
  | zero =>
    intro prev cs hlen hs
    have hc : cs = [] := List.eq_nil_of_length_eq_zero (by omega)
    subst hc
    exact NoM_nil hf2.needs _
  | succ fuel ih =>
    intro prev cs hlen hs
    match cs with
    | [] => exact NoM_nil hf2.needs _
    | c :: rest =>
      rcases ht : tryRE r1 prev (c :: rest) with _ | pk
      · simp only [substPiiF, ht]
        have hsrest : NoM r2 (wbOf (some c)) rest := NoM_drop hs 1
        have hZ := ih (some c) rest (by simp at hlen; omega) hsrest
        apply NoM_cons hZ
        intro j w2 hXX
        obtain ⟨j2, w3, hX2⟩ := transfer_match hf1 hf2 hhead fuel c rest hXX
        exact hs 0 j2 w3 hX2
      · obtain ⟨p, k⟩ := pk
        simp only [substPiiF, ht]
        obtain ⟨hM1, hkle⟩ := tryRE_some ht
        have hk1 : 1 ≤ k := needs_pos hM1 hf1.needs
        have hsdrop : NoM r2 (wbOf p) ((c :: rest).drop k) := by
          have hd := NoM_drop hs k
          have hfc : wbOf p = wbAt (c :: rest) (k - 1) := by
            rcases hM1.final_ctx with ⟨hz, _⟩ | ⟨_, hfc⟩
            · omega
            · exact hfc
          have hctx : ctxW (wbOf prev) (c :: rest) k = wbOf p := by
            unfold ctxW
            rw [if_neg (by omega), ← hfc]
          rw [hctx] at hd
          exact hd
        have hY := ih p ((c :: rest).drop k)
          (by rw [List.length_drop]; simp at hlen ⊢; omega) hsdrop
        apply NoM_token_append hf2 hlast hq hY
        intro hp
        rcases substPiiF_head r1 T hhead fuel p ((c :: rest).drop k)
          with hh | hww
        · rcases hYv : substPiiF r1 T fuel p ((c :: rest).drop k)
            with _ | ⟨y, ys⟩
          · rw [hYv] at hh
            simp at hh
          · rw [hYv] at hh
            have hy : y = '[' := by simpa using hh
            subst hy
            show isWordA '[' = false
            decide
        · rw [hww, wbAt_drop]
          simp only [Nat.add_zero]
          have htr := trailing_boundary hf1.trailing hM1
          rw [hp] at htr
          rcases hv : wbAt (c :: rest) k with _ | _
          · rfl
          · rw [hv] at htr
            exact absurd htr (by decide)

theorem substPii_self {r : RE} {q : Char → Bool} (hf : PatFacts r q) {T : Str}
    (hh : T.head? = some '[') (hl : T.getLast? = some ']')
    (hq : ∀ c ∈ T, q c = false) (cs : Str) :
    NoM r false (substPii r T cs) :=
  substPiiF_self hf hh hl hq cs.length none cs (Nat.le_refl _)

theorem substPii_cross {r1 : RE} {q1 : Char → Bool} (hf1 : PatFacts r1 q1)
    {r2 : RE} {q2 : Char → Bool} (hf2 : PatFacts r2 q2) {T1 : Str}
    (hh : T1.head? = some '[') (hl : T1.getLast? = some ']')
    (hq : ∀ c ∈ T1, q2 c = false) (cs : Str) (hs : NoM r2 false cs) :
    NoM r2 false (substPii r1 T1 cs) :=
  substPiiF_cross hf1 hf2 hh hl hq cs.length none cs (Nat.le_refl _) hs

theorem substPii_id {r : RE} (T : Str) (cs : Str) (h : NoM r false cs) :
    substPii r T cs = cs :=
  substPiiF_id T cs.length none cs h

theorem redact_pii_eq (cfg : PiiConfig) (t : Str) :
    Guardrails.redact_pii cfg t =
      stepP cfg.credit_card ccRE ("[REDACTED_CC]".toList)
        (stepP cfg.ssn ssnRE ("[REDACTED_SSN]".toList)
          (stepP cfg.phone phoneRE ("[REDACTED_PHONE]".toList)
            (stepP cfg.email emailRE ("[REDACTED_EMAIL]".toList) t))) := rfl

theorem stepP_id {r : RE} (T : Str) (b : Bool) (s : Str)
    (h : b = true → NoM r false s) : stepP b r T s = s := by
  unfold stepP
  rcases hb : b with _ | _
  · rw [if_neg (by simp)]
  · rw [if_pos rfl]
    exact substPii_id T s (h hb)

theorem stepP_noM {r2 : RE} {q2 : Char → Bool} (hf2 : PatFacts r2 q2)
    {r1 : RE} {q1 : Char → Bool} (hf1 : PatFacts r1 q1) {T1 : Str}
    (hh : T1.head? = some '[') (hl : T1.getLast? = some ']')
    (hq : ∀ c ∈ T1, q2 c = false) (b : Bool) (s : Str)
    (hs : NoM r2 false s) : NoM r2 false (stepP b r1 T1 s) := by
  unfold stepP
  rcases b with _ | _
  · rw [if_neg (by simp)]
    exact hs
  · rw [if_pos rfl]
    exact substPii_cross hf1 hf2 hh hl hq s hs

theorem stepP_self {r : RE} {q : Char → Bool} (hf : PatFacts r q) {T : Str}
    (hh : T.head? = some '[') (hl : T.getLast? = some ']')
    (hq : ∀ c ∈ T, q c = false) {b : Bool} (s : Str) (hb : b = true) :
    NoM r false (stepP b r T s) := by
  subst hb
  unfold stepP
  rw [if_pos rfl]
  exact substPii_self hf hh hl hq s

theorem tokE_head : ("[REDACTED_EMAIL]".toList).head? = some '[' := by decide

theorem tokE_last : ("[REDACTED_EMAIL]".toList).getLast? = some ']' := by
  decide

theorem tokP_head : ("[REDACTED_PHONE]".toList).head? = some '[' := by decide

theorem tokP_last : ("[REDACTED_PHONE]".toList).getLast? = some ']' := by
  decide

theorem tokS_head : ("[REDACTED_SSN]".toList).head? = some '[' := by decide

theorem tokS_last : ("[REDACTED_SSN]".toList).getLast? = some ']' := by
  decide

theorem tokC_head : ("[REDACTED_CC]".toList).head? = some '[' := by decide

theorem tokC_last : ("[REDACTED_CC]".toList).getLast? = some ']' := by
  decide

theorem tokE_at : ∀ c ∈ ("[REDACTED_EMAIL]".toList), isAtSign c = false := by
  decide

theorem tokE_dig : ∀ c ∈ ("[REDACTED_EMAIL]".toList), isDigitA c = false := by
  decide

theorem tokP_at : ∀ c ∈ ("[REDACTED_PHONE]".toList), isAtSign c = false := by
  decide

theorem tokP_dig : ∀ c ∈ ("[REDACTED_PHONE]".toList), isDigitA c = false := by
  decide

theorem tokS_at : ∀ c ∈ ("[REDACTED_SSN]".toList), isAtSign c = false := by
  decide

theorem tokS_dig : ∀ c ∈ ("[REDACTED_SSN]".toList), isDigitA c = false := by
  decide

theorem tokC_at : ∀ c ∈ ("[REDACTED_CC]".toList), isAtSign c = false := by
  decide

theorem tokC_dig : ∀ c ∈ ("[REDACTED_CC]".toList), isDigitA c = false := by
  decide

theorem redact_noM_email (cfg : PiiConfig) (t : Str)
    (he : cfg.email = true) : NoM emailRE false (Guardrails.redact_pii cfg t) := by
  rw [redact_pii_eq]
  exact stepP_noM emailRE_facts ccRE_facts tokC_head tokC_last tokC_at _ _
    (stepP_noM emailRE_facts ssnRE_facts tokS_head tokS_last tokS_at _ _
      (stepP_noM emailRE_facts phoneRE_facts tokP_head tokP_last tokP_at _ _
        (stepP_self emailRE_facts tokE_head tokE_last tokE_at _ he)))

theorem redact_noM_phone (cfg : PiiConfig) (t : Str)
    (hp : cfg.phone = true) : NoM phoneRE false (Guardrails.redact_pii cfg t) := by
  rw [redact_pii_eq]
  exact stepP_noM phoneRE_facts ccRE_facts tokC_head tokC_last tokC_dig _ _
    (stepP_noM phoneRE_facts ssnRE_facts tokS_head tokS_last tokS_dig _ _
      (stepP_self phoneRE_facts tokP_head tokP_last tokP_dig _ hp))

theorem redact_noM_ssn (cfg : PiiConfig) (t : Str)
    (hs : cfg.ssn = true) : NoM ssnRE false (Guardrails.redact_pii cfg t) := by
  rw [redact_pii_eq]
  exact stepP_noM ssnRE_facts ccRE_facts tokC_head tokC_last tokC_dig _ _
    (stepP_self ssnRE_facts tokS_head tokS_last tokS_dig _ hs)

theorem redact_noM_cc (cfg : PiiConfig) (t : Str)
    (hc : cfg.credit_card = true) : NoM ccRE false (Guardrails.redact_pii cfg t) := by
  rw [redact_pii_eq]
  exact stepP_self ccRE_facts tokC_head tokC_last tokC_dig _ hc

/-- Idempotence of a full redaction pass: applying `redact_pii` twice gives the
same text as applying it once, for every configuration and text. -/
theorem redact_pii_idem (cfg : PiiConfig) (text : Str) :
    Guardrails.redact_pii cfg (Guardrails.redact_pii cfg text) = Guardrails.redact_pii cfg text := by
  rw [redact_pii_eq cfg (Guardrails.redact_pii cfg text)]
  rw [stepP_id _ _ _ (redact_noM_email cfg text),
    stepP_id _ _ _ (redact_noM_phone cfg text),
    stepP_id _ _ _ (redact_noM_ssn cfg text),
    stepP_id _ _ _ (redact_noM_cc cfg text)]


end RagModel

open RagModel in
/-- C1: in `HybridRetriever.search`, the candidate set is the union of the dense
top ids and the lexical (BM25) top ids; every candidate's fused score is exactly
`alpha * dense + (1 - alpha) * sparse`; and a signal that produced no score for a
candidate (a dense-unlisted id, or a BM25 index out of range) contributes exactly
`0` while the candidate stays in the set. -/
theorem C1_fusion_formula (dense : List (ℕ × ℚ)) (bm : List ℚ) (rerank_k : ℕ)
    (alpha : ℚ) (i : ℕ) :
    (i ∈ candidateIds dense bm rerank_k ↔
        i ∈ dense.map Prod.fst ∨ i ∈ bmTopIds bm (rerank_k * 2))
    ∧ (i ∈ candidateIds dense bm rerank_k →
        (i, alpha * denseScoreOf dense i + (1 - alpha) * sparseScoreOf bm i)
          ∈ fusedPairs dense bm rerank_k alpha)
    ∧ (i ∉ dense.map Prod.fst → denseScoreOf dense i = 0)
    ∧ (bm.length ≤ i → sparseScoreOf bm i = 0) := by
  refine ⟨?_, ?_, ?_, ?_⟩
  · simp [candidateIds]
  · intro hi
    exact List.mem_map.mpr ⟨i, hi, rfl⟩
  · exact denseScoreOf_eq_zero
  · intro h
    simp [sparseScoreOf, Nat.not_lt.mpr h]

open RagModel in
/-- Witness for C1 at a concrete input: id `1` is BM25-only (not dense-listed),
stays a candidate, gets dense contribution `0`, and its fused pair is in the list. -/
theorem C1_fusion_formula_witness :
    ((1 : ℕ), (1 : ℚ)/2 * denseScoreOf [(0, 1/2)] 1
        + (1 - 1/2) * sparseScoreOf [0, 3] 1) ∈ fusedPairs [(0, 1/2)] [0, 3] 1 (1/2)
    ∧ denseScoreOf [((0 : ℕ), (1 : ℚ)/2)] 1 = 0 :=
  ⟨(C1_fusion_formula [(0, 1/2)] [0, 3] 1 (1/2) 1).2.1 (by decide),
   (C1_fusion_formula [(0, 1/2)] [0, 3] 1 (1/2) 1).2.2.1 (by decide)⟩

open RagModel in
/-- C7: when either underlying index is unavailable, `HybridRetriever.search`
returns the empty list for every query and parameter setting (a valid result,
not an error). -/
theorem C7_unavailable_index_empty (inp : SearchInput) (top_k rerank_k : ℕ)
    (alpha : ℚ) (h : inp.dense? = none ∨ inp.bm? = none) :
    HybridRetriever.search inp top_k rerank_k alpha = [] := by
  cases hd : inp.dense? <;> cases hb : inp.bm? <;>
    simp_all [HybridRetriever.search]

open RagModel in
/-- Witness for C7: a retriever with no FAISS index returns no results. -/
theorem C7_unavailable_index_empty_witness :
    HybridRetriever.search ⟨none, some [1, 2], [], [], false, fun _ => 0⟩ 3 3 (13/20)
      = [] :=
  C7_unavailable_index_empty ⟨none, some [1, 2], [], [], false, fun _ => 0⟩ 3 3 (13/20)
    (Or.inl rfl)

open RagModel in
/-- C6: for every query and valid parameter setting, the list returned by
`HybridRetriever.search` has length at most `top_k` and is sorted by final score
in non-strictly descending order (ties keep the stable-sort order by construction,
since the model sorts with the stable `List.insertionSort`). -/
theorem C6_length_sorted (inp : SearchInput) (top_k rerank_k : ℕ) (alpha : ℚ)
    (htk : 1 ≤ top_k) (hrk : 1 ≤ rerank_k) (ha0 : 0 ≤ alpha) (ha1 : alpha ≤ 1) :
    (HybridRetriever.search inp top_k rerank_k alpha).length ≤ top_k
    ∧ List.Sorted (fun a b : RChunk => b.score ≤ a.score)
        (HybridRetriever.search inp top_k rerank_k alpha) := by
  obtain ⟨d?, b?, docs, meta, useR, rr⟩ := inp
  cases d? with
  | none => simp [HybridRetriever.search]
  | some denseF =>
    cases b? with
    | none => simp [HybridRetriever.search]
    | some bm =>
      have key : ∀ fin : List (ℕ × ℚ), List.Sorted scoreGe fin →
          List.Sorted (fun a b : RChunk => b.score ≤ a.score)
            (fin.map (toChunk ⟨some denseF, some bm, docs, meta, useR, rr⟩)) := by
        intro fin hfin
        rw [List.Sorted, List.pairwise_map]
        exact hfin
      cases useR with
      | false =>
        constructor
        · simp [HybridRetriever.search, List.length_take]
        · simp only [HybridRetriever.search, fusedSorted]
          exact key _ (List.Pairwise.sublist
            ((List.take_sublist _ _).trans (List.take_sublist _ _))
            (List.sorted_insertionSort scoreGe _))
      | true =>
        constructor
        · simp [HybridRetriever.search, List.length_take]
        · simp only [HybridRetriever.search, fusedSorted]
          exact key _ (List.Pairwise.sublist (List.take_sublist _ _)
            (List.sorted_insertionSort scoreGe _))

open RagModel in
/-- Witness for C6 at a concrete retriever state. -/
theorem C6_length_sorted_witness :
    (HybridRetriever.search
        ⟨some (fun _ => [(0, 1/2), (1, 3/4)]), some [2, 0], [[], []], [[], []],
          false, fun _ => 0⟩ 2 1 (13/20)).length ≤ 2
    ∧ List.Sorted (fun a b : RChunk => b.score ≤ a.score)
        (HybridRetriever.search
          ⟨some (fun _ => [(0, 1/2), (1, 3/4)]), some [2, 0], [[], []], [[], []],
            false, fun _ => 0⟩ 2 1 (13/20)) :=
  C6_length_sorted
    ⟨some (fun _ => [(0, 1/2), (1, 3/4)]), some [2, 0], [[], []], [[], []],
      false, fun _ => 0⟩ 2 1 (13/20)
    (by decide) (by decide) (by norm_num) (by norm_num)

open RagModel in
/-- C2: with reranking enabled, `search` blends `0.7 * rerank + 0.3 * fused`,
re-sorts by the blended score, and only then truncates to `top_k`; with reranking
disabled it keeps the fused scores and their order.  At fused scores `0.9`, `0.4`
and rerank scores `0.2`, `0.95` the final scores are `0.41` and `0.785` and the
order flips. -/
theorem C2_rerank_final_score (inp : SearchInput) (top_k rerank_k : ℕ) (alpha : ℚ)
    (denseF : ℕ → List (ℕ × ℚ)) (bm : List ℚ)
    (hd : inp.dense? = some denseF) (hb : inp.bm? = some bm) :
    (inp.useReranker = true →
      HybridRetriever.search inp top_k rerank_k alpha =
        ((((fusedSorted (denseF (top_k * 3)) bm rerank_k alpha (top_k * 3)).map
            (rerankBlend inp.rr)).insertionSort scoreGe).take top_k).map (toChunk inp))
    ∧ (inp.useReranker = false →
      HybridRetriever.search inp top_k rerank_k alpha =
        ((fusedSorted (denseF top_k) bm rerank_k alpha top_k).take top_k).map
          (toChunk inp))
    ∧ ((HybridRetriever.search
          ⟨some (fun _ => [(0, 9/10), (1, 2/5)]), some [0, 0], [[], []], [[], []],
            true, fun i => if i == 0 then 1/5 else 19/20⟩ 2 1 1).map RChunk.score
        = [157/200, 41/100])
    ∧ ((HybridRetriever.search
          ⟨some (fun _ => [(0, 9/10), (1, 2/5)]), some [0, 0], [[], []], [[], []],
            false, fun i => if i == 0 then 1/5 else 19/20⟩ 2 1 1).map RChunk.score
        = [9/10, 2/5]) := by
  obtain ⟨d?, b?, docs, meta, useR, rr⟩ := inp
  cases hd
  cases hb
  refine ⟨?_, ?_, by decide, by decide⟩
  · intro hr
    cases hr
    simp [HybridRetriever.search]
  · intro hr
    cases hr
    simp [HybridRetriever.search]

open RagModel in
/-- Witness for C2: the reranked search at the concrete flip instance equals its
blended, re-sorted, truncated form. -/
theorem C2_rerank_final_score_witness :
    HybridRetriever.search
        ⟨some (fun _ => [(0, 9/10), (1, 2/5)]), some [0, 0], [[], []], [[], []],
          true, fun i => if i == 0 then 1/5 else 19/20⟩ 2 1 1 =
      ((((fusedSorted [(0, 9/10), (1, 2/5)] [0, 0] 1 1 (2 * 3)).map
          (rerankBlend (fun i => if i == 0 then 1/5 else 19/20))).insertionSort
            scoreGe).take 2).map
        (toChunk
          ⟨some (fun _ => [(0, 9/10), (1, 2/5)]), some [0, 0], [[], []], [[], []],
            true, fun i => if i == 0 then 1/5 else 19/20⟩) :=
  (C2_rerank_final_score
      ⟨some (fun _ => [(0, 9/10), (1, 2/5)]), some [0, 0], [[], []], [[], []],
        true, fun i => if i == 0 then 1/5 else 19/20⟩ 2 1 1
      (fun _ => [(0, 9/10), (1, 2/5)]) [0, 0] rfl rfl).1 rfl


open RagModel in
/-- C5: if the generation service raises during primary answer generation,
`RAGPipeline.query` returns (never raises) a result whose answer is the
diagnostic string and whose other fields are empty/false. -/
theorem C5_generation_failure_degrades (inp : SearchInput) (top_k rerank_k : ℕ)
    (alpha : ℚ) (systemPrompt : Str) (gen : GenService) (question suffix : Str)
    (gf : Bool) (e : Str)
    (h : gen.primary (promptOf systemPrompt
        (contextText (HybridRetriever.search inp top_k rerank_k alpha))
        question suffix) = Except.error e) :
    RAGPipeline.query inp top_k rerank_k alpha systemPrompt gen question suffix gf
      = { answer := "❌ LLM error: ".toList ++ e, sources := [], evidence_map := [],
          has_external_knowledge := false, uncited_warning := false,
          followup_questions := [] } := by
  unfold RAGPipeline.query
  simp only [h]

open RagModel in
/-- Witness for C5: a generator that always raises yields the degraded result. -/
theorem C5_generation_failure_degrades_witness :
    RAGPipeline.query ⟨none, some [], [], [], false, fun _ => 0⟩ 1 1 1 []
        ⟨fun _ => Except.error ("boom".toList), fun _ => Except.error []⟩
        ("q".toList) [] true
      = { answer := "❌ LLM error: ".toList ++ "boom".toList, sources := [],
          evidence_map := [], has_external_knowledge := false,
          uncited_warning := false, followup_questions := [] } :=
  C5_generation_failure_degrades ⟨none, some [], [], [], false, fun _ => 0⟩ 1 1 1 []
    ⟨fun _ => Except.error ("boom".toList), fun _ => Except.error []⟩
    ("q".toList) [] true ("boom".toList) rfl

open RagModel in
/-- C8: retrieval depends only on the raw question and never on the style
suffix; whenever generation succeeds on both runs, two queries differing only in
`prompt_suffix` return identical source lists (ids, titles, texts, scores). -/
theorem C8_suffix_does_not_perturb_retrieval (inp : SearchInput)
    (top_k rerank_k : ℕ) (alpha : ℚ) (systemPrompt : Str) (gen : GenService)
    (question s1 s2 : Str) (gf : Bool) (a1 a2 : Str)
    (h1 : gen.primary (promptOf systemPrompt
        (contextText (HybridRetriever.search inp top_k rerank_k alpha))
        question s1) = Except.ok a1)
    (h2 : gen.primary (promptOf systemPrompt
        (contextText (HybridRetriever.search inp top_k rerank_k alpha))
        question s2) = Except.ok a2) :
    (RAGPipeline.query inp top_k rerank_k alpha systemPrompt gen question s1 gf).sources
      = (RAGPipeline.query inp top_k rerank_k alpha systemPrompt gen question s2 gf).sources := by
  rw [query_ok_fields inp top_k rerank_k alpha systemPrompt gen question s1 gf a1 h1,
      query_ok_fields inp top_k rerank_k alpha systemPrompt gen question s2 gf a2 h2]

open RagModel in
/-- Witness for C8 with two distinct style suffixes. -/
theorem C8_suffix_does_not_perturb_retrieval_witness :
    (RAGPipeline.query ⟨none, some [], [], [], false, fun _ => 0⟩ 1 1 1 []
        ⟨fun _ => Except.ok [], fun _ => Except.error []⟩
        ("q".toList) (" Explain like I am five.".toList) false).sources
      = (RAGPipeline.query ⟨none, some [], [], [], false, fun _ => 0⟩ 1 1 1 []
          ⟨fun _ => Except.ok [], fun _ => Except.error []⟩
          ("q".toList) [] false).sources :=
  C8_suffix_does_not_perturb_retrieval ⟨none, some [], [], [], false, fun _ => 0⟩
    1 1 1 [] ⟨fun _ => Except.ok [], fun _ => Except.error []⟩
    ("q".toList) (" Explain like I am five.".toList) [] false [] [] rfl rfl

open RagModel in
/-- C3 fails on the code: an answer whose only citation tag is `[Source 2]`,
produced by a query that retrieved a single source (id 1), yields an empty
evidence map — not one entry per distinct cited N, and not an entry with id 2. -/
theorem C3_counterexample_dangling_citation :
    (RAGPipeline.query
        ⟨some (fun _ => [(0, 1)]), some [0],
          ["Paris is the capital of France.".toList], ["geo.txt".toList],
          false, fun _ => 0⟩ 1 1 1 []
        ⟨fun _ => Except.ok ("x [Source 2]".toList), fun _ => Except.error []⟩
        ("q".toList) [] false).answer = "x [Source 2]".toList
    ∧ scanCitations (RAGPipeline.query
        ⟨some (fun _ => [(0, 1)]), some [0],
          ["Paris is the capital of France.".toList], ["geo.txt".toList],
          false, fun _ => 0⟩ 1 1 1 []
        ⟨fun _ => Except.ok ("x [Source 2]".toList), fun _ => Except.error []⟩
        ("q".toList) [] false).answer = [2]
    ∧ (RAGPipeline.query
        ⟨some (fun _ => [(0, 1)]), some [0],
          ["Paris is the capital of France.".toList], ["geo.txt".toList],
          false, fun _ => 0⟩ 1 1 1 []
        ⟨fun _ => Except.ok ("x [Source 2]".toList), fun _ => Except.error []⟩
        ("q".toList) [] false).sources.map Source.id = [1]
    ∧ (RAGPipeline.query
        ⟨some (fun _ => [(0, 1)]), some [0],
          ["Paris is the capital of France.".toList], ["geo.txt".toList],
          false, fun _ => 0⟩ 1 1 1 []
        ⟨fun _ => Except.ok ("x [Source 2]".toList), fun _ => Except.error []⟩
        ("q".toList) [] false).evidence_map = [] := by
  refine ⟨by decide, by decide, by decide, by decide⟩

open RagModel in
/-- C3 amended: for every successful `RAGPipeline.query`, the evidence map has
exactly one entry per distinct cited N that matches the id of a returned source
(repeated citations contribute one entry, non-matching citations none), entries
are sorted by strictly ascending id, every entry id is the id of a source of the
same result, and an answer whose citation list is exactly `[Source 2]` yields
the single entry id list `[2]` provided a source with id 2 exists. -/
theorem C3_evidence_map_amended (inp : SearchInput) (top_k rerank_k : ℕ)
    (alpha : ℚ) (systemPrompt : Str) (gen : GenService) (question suffix : Str)
    (gf : Bool) (raw : Str)
    (h : gen.primary (promptOf systemPrompt
        (contextText (HybridRetriever.search inp top_k rerank_k alpha))
        question suffix) = Except.ok raw) :
    let r := RAGPipeline.query inp top_k rerank_k alpha systemPrompt gen question
      suffix gf
    (r.evidence_map.map (fun e => e.id)
        = (((scanCitations r.answer).dedup).insertionSort (· ≤ ·)).filter
            (fun n => decide (n ∈ r.sources.map Source.id)))
    ∧ List.Sorted (· < ·) (r.evidence_map.map (fun e => e.id))
    ∧ (∀ e ∈ r.evidence_map, e.id ∈ r.sources.map Source.id)
    ∧ (scanCitations r.answer = [2] → 2 ∈ r.sources.map Source.id →
        r.evidence_map.map (fun e => e.id) = [2]) := by
  simp only [query_ok_fields inp top_k rerank_k alpha systemPrompt gen question
    suffix gf raw h]
  have hp := extract_props (scanCitations (cleanAnswer raw))
    (sourcesOf (HybridRetriever.search inp top_k rerank_k alpha))
  refine ⟨hp.1, hp.2.1, hp.2.2, ?_⟩
  intro hcite hmem
  have h1 := hp.1
  rw [hcite] at h1
  simp only [extractEvidenceMap]
  rw [hcite, h1]
  have hone : (([2] : List ℕ).dedup).insertionSort (· ≤ ·) = [2] := by decide
  rw [hone]
  simp only [List.filter_cons, List.filter_nil, decide_eq_true_eq]
  rw [if_pos hmem]

open RagModel in
/-- Witness for C3 amended: two sources, the answer cites `[Source 2]` twice;
the evidence map has exactly the single id 2, sorted, resolving to a source. -/
theorem C3_evidence_map_amended_witness :
    let r := RAGPipeline.query
      ⟨some (fun _ => [(0, 1), (1, 1/2)]), some [0, 0],
        ["Paris is the capital of France.".toList, "Berlin is in Germany.".toList],
        ["geo.txt".toList, "de.txt".toList], false, fun _ => 0⟩ 2 1 1 []
      ⟨fun _ => Except.ok ("a [Source 2] b [Source 2]".toList),
        fun _ => Except.error []⟩ ("q".toList) [] false
    (r.evidence_map.map (fun e => e.id)
        = (((scanCitations r.answer).dedup).insertionSort (· ≤ ·)).filter
            (fun n => decide (n ∈ r.sources.map Source.id)))
    ∧ List.Sorted (· < ·) (r.evidence_map.map (fun e => e.id))
    ∧ (∀ e ∈ r.evidence_map, e.id ∈ r.sources.map Source.id)
    ∧ (scanCitations r.answer = [2] → 2 ∈ r.sources.map Source.id →
        r.evidence_map.map (fun e => e.id) = [2]) :=
  C3_evidence_map_amended
    ⟨some (fun _ => [(0, 1), (1, 1/2)]), some [0, 0],
      ["Paris is the capital of France.".toList, "Berlin is in Germany.".toList],
      ["geo.txt".toList, "de.txt".toList], false, fun _ => 0⟩ 2 1 1 []
    ⟨fun _ => Except.ok ("a [Source 2] b [Source 2]".toList),
      fun _ => Except.error []⟩ ("q".toList) [] false
    ("a [Source 2] b [Source 2]".toList) rfl

open RagModel in
/-- C10: a `[Source N]` citation whose N matches no returned source id is
silently dropped by evidence-map extraction: it produces no entry and no error,
and the entries of the remaining citations are exactly those produced without
the dangling citation. -/
theorem C10_dangling_citation_dropped (cited : List ℕ) (sources : List Source)
    (n : ℕ) (h : n ∉ sources.map Source.id) :
    extractFromCited cited sources
      = extractFromCited (cited.filter (fun m => m ≠ n)) sources
    ∧ ∀ e ∈ extractFromCited cited sources, e.id ≠ n := by
  constructor
  · unfold extractFromCited
    rw [filterMap_eq_filterMap_filter_isSome (entryFor sources)
        ((cited.dedup).insertionSort (· ≤ ·)),
      filterMap_eq_filterMap_filter_isSome (entryFor sources)
        (((cited.filter (fun m => m ≠ n)).dedup).insertionSort (· ≤ ·))]
    congr 1
    apply sorted_nodup_ext
    · exact List.Pairwise.sublist (List.filter_sublist _) (sortedDedup_sorted cited)
    · exact List.Pairwise.sublist (List.filter_sublist _)
        (sortedDedup_sorted (cited.filter (fun m => m ≠ n)))
    · exact (sortedDedup_nodup cited).filter _
    · exact (sortedDedup_nodup (cited.filter (fun m => m ≠ n))).filter _
    · intro x
      constructor
      · intro hx
        obtain ⟨hx1, hx2⟩ := List.mem_filter.mp hx
        have hxc : x ∈ cited := by
          have := (List.mem_insertionSort (· ≤ ·)).mp hx1
          exact (List.mem_dedup).mp this
        have hxid : x ∈ sources.map Source.id :=
          entryFor_isSome_iff.mp (by simpa using hx2)
        have hxn : x ≠ n := fun hxe => h (hxe ▸ hxid)
        refine List.mem_filter.mpr ⟨?_, hx2⟩
        rw [List.mem_insertionSort, List.mem_dedup]
        exact List.mem_filter.mpr ⟨hxc, by simpa using hxn⟩
      · intro hx
        obtain ⟨hx1, hx2⟩ := List.mem_filter.mp hx
        have hxc : x ∈ cited.filter (fun m => m ≠ n) := by
          have := (List.mem_insertionSort (· ≤ ·)).mp hx1
          exact (List.mem_dedup).mp this
        refine List.mem_filter.mpr ⟨?_, hx2⟩
        rw [List.mem_insertionSort, List.mem_dedup]
        exact (List.mem_filter.mp hxc).1
  · intro e he heq
    obtain ⟨m, hm, hme⟩ := List.mem_filterMap.mp he
    have hid : e.id = m := entryFor_id hme
    have hmem : m ∈ sources.map Source.id :=
      entryFor_isSome_iff.mp (by rw [hme]; rfl)
    rw [hid] at heq
    exact h (heq ▸ hmem)

open RagModel in
/-- Witness for C10: cited ids 2 and 5 against sources with ids 1 and 2; the
dangling 5 contributes nothing and removing it changes nothing. -/
theorem C10_dangling_citation_dropped_witness :
    (extractFromCited [2, 5]
        [⟨1, "t1".toList, 1, "x".toList, "x".toList⟩,
         ⟨2, "t2".toList, 1, "y".toList, "y".toList⟩]
      = extractFromCited ([2, 5].filter (fun m => m ≠ 5))
          [⟨1, "t1".toList, 1, "x".toList, "x".toList⟩,
           ⟨2, "t2".toList, 1, "y".toList, "y".toList⟩])
    ∧ ∀ e ∈ extractFromCited [2, 5]
        [⟨1, "t1".toList, 1, "x".toList, "x".toList⟩,
         ⟨2, "t2".toList, 1, "y".toList, "y".toList⟩], e.id ≠ 5 :=
  C10_dangling_citation_dropped [2, 5]
    [⟨1, "t1".toList, 1, "x".toList, "x".toList⟩,
     ⟨2, "t2".toList, 1, "y".toList, "y".toList⟩] 5 (by decide)

open RagModel in
/-- C4 fails on the code: this answer has zero `[Source N]` tags and consists of
a single 9-word sentence that is not a recognized disclaimer, yet
`uncited_warning` is false, because the sentence carries an `[External Knowledge]`
tag and is therefore excluded from the uncited-claim count. -/
theorem C4_counterexample_external_tag :
    (RAGPipeline.query ⟨none, some [], [], [], false, fun _ => 0⟩ 1 1 1 []
        ⟨fun _ => Except.ok
            ("This claim uses outside knowledge here today [External Knowledge].".toList),
          fun _ => Except.error []⟩ ("q".toList) [] false).answer
      = "This claim uses outside knowledge here today [External Knowledge].".toList
    ∧ hasCitationTag
        ("This claim uses outside knowledge here today [External Knowledge].".toList)
      = false
    ∧ splitSentences
        (("This claim uses outside knowledge here today [External Knowledge].".toList).filter
          (fun c => c ≠ '\r'))
      = ["This claim uses outside knowledge here today [External Knowledge].".toList]
    ∧ 6 < wordCount (trim ((trim
        ("This claim uses outside knowledge here today [External Knowledge].".toList)).map
          (fun c => if c = '\n' then ' ' else c)))
    ∧ isDisclaimer (trim ((trim
        ("This claim uses outside knowledge here today [External Knowledge].".toList)).map
          (fun c => if c = '\n' then ' ' else c)))
      = false
    ∧ (RAGPipeline.query ⟨none, some [], [], [], false, fun _ => 0⟩ 1 1 1 []
        ⟨fun _ => Except.ok
            ("This claim uses outside knowledge here today [External Knowledge].".toList),
          fun _ => Except.error []⟩ ("q".toList) [] false).uncited_warning
      = false :=
  ⟨by decide, by decide, by decide, by decide, by decide, by decide⟩

open RagModel in
/-- C4 amended: `uncited_warning` is true iff at least one sentence of the split
answer is classified as an uncited claim; a sentence classified as an uncited
claim (nonempty, not the follow-up label, not a numbered item, no `[Source N]`
tag, no `[External` tag, not a recognized disclaimer, and longer than 6 words)
always raises the flag; and a sentence of 6 or fewer words is never classified
as an uncited claim. -/
theorem C4_uncited_warning_amended (answer : Str) :
    (∀ sent ∈ splitSentences (answer.filter (fun c => c ≠ '\r')),
        isUncitedClaim sent = true → checkForUncitedClaims answer = true)
    ∧ (∀ sent : Str,
        wordCount (trim ((trim sent).map (fun c => if c = '\n' then ' ' else c))) ≤ 6 →
        isUncitedClaim sent = false)
    ∧ (checkForUncitedClaims answer = true ↔
        ∃ sent ∈ splitSentences (answer.filter (fun c => c ≠ '\r')),
          isUncitedClaim sent = true) := by
  have hiff : checkForUncitedClaims answer = true ↔
      ∃ sent ∈ splitSentences (answer.filter (fun c => c ≠ '\r')),
        isUncitedClaim sent = true := by
    unfold checkForUncitedClaims
    rw [decide_eq_true_eq]
    constructor
    · intro hpos
      have hne : (splitSentences (answer.filter (fun c => c ≠ '\r'))).filter
          isUncitedClaim ≠ [] := by
        intro hnil
        rw [hnil] at hpos
        exact absurd hpos (by simp)
      obtain ⟨x, hx⟩ := List.exists_mem_of_ne_nil _ hne
      obtain ⟨hx1, hx2⟩ := List.mem_filter.mp hx
      exact ⟨x, hx1, hx2⟩
    · rintro ⟨x, hx1, hx2⟩
      exact List.length_pos_of_mem (List.mem_filter.mpr ⟨hx1, hx2⟩)
  refine ⟨fun sent hmem hcl => hiff.mpr ⟨sent, hmem, hcl⟩, ?_, hiff⟩
  intro sent hw
  unfold isUncitedClaim
  simp only []
  split
  · rfl
  · split
    · rfl
    · split
      · rfl
      · have hd : decide (6 < wordCount (trim ((trim sent).map
            (fun c => if c = '\n' then ' ' else c)))) = false := by
          rw [decide_eq_false_iff_not]
          omega
        rw [hd]
        simp

open RagModel in
/-- Witness for C4 amended: a plain 8-word uncited sentence raises the flag. -/
theorem C4_uncited_warning_amended_witness :
    checkForUncitedClaims ("Seven words are in this sentence right here.".toList)
      = true :=
  (C4_uncited_warning_amended
      ("Seven words are in this sentence right here.".toList)).1
    ("Seven words are in this sentence right here.".toList)
    (by decide) (by decide)

open RagModel in
/-- C9: Guardrails.redact_pii is idempotent: for every configuration of
enabled PII patterns and every input text, applying the redaction twice in
succession yields exactly the same text as applying it once. -/
theorem C9_redact_pii_idempotent (cfg : PiiConfig) (text : Str) :
    Guardrails.redact_pii cfg (Guardrails.redact_pii cfg text)
      = Guardrails.redact_pii cfg text :=
  redact_pii_idem cfg text
